import Mathlib

/-!
# Cluster machine table (iocore/cluster/machine.cc)

A shallow embedding of the cluster-membership registry: the fixed-capacity
backing store `cluster_machines`, the sorted pointer index `sorted_machines`,
the counter `cluster_machine_count`, and the operations `init_machines`,
`add_machine` / `do_add_machine`, `get_machine`, `machine_up_notify`,
`machine_add_connection` and `machine_remove_connection`.

Conventions of the embedding.

* A `ClusterMachine *` that points into `cluster_machines` is the slot number
  (`Nat`); a pointer that may be `NULL` is an `Option Nat`.
* C strings are `List Char`; a `char *` that may be `NULL` is an `Option`.
* `unsigned int ip` is a `Nat`; `int` values are `Int`, and where the source
  computes an `int` (the port difference in `compare_machine`, `++` and `--`
  of the connection count) the result is wrapped to 32 bits.
* Outcomes of calls outside this file (`malloc`, `nio_add_to_epoll`,
  `remove_machine_sock_context`, `ink_mutex_init`) are explicit arguments;
  each call of `cluster_machine_change_notify` is recorded in a returned list.
* The mutex `machine_lock` and the `Debug` / `Error` log lines have no effect
  on the sequential state and are not represented.
-/

namespace Cluster

/-! ## errno values (Linux `<errno.h>`) -/

def ENOENT : Int := 2
def ENOMEM : Int := 12
def EEXIST : Int := 17
def ENOSPC : Int := 28

/-! ## Machine integers -/

def INT_MIN : Int := -2147483648
def INT_MAX : Int := 2147483647

/-- Result of an `int` computation: the mathematical value wrapped to 32-bit
two's complement. -/
def wrapInt32 (x : Int) : Int := (x + 2147483648) % 4294967296 - 2147483648

/-- Values an `int` variable can hold. -/
def isInt32 (x : Int) : Prop := INT_MIN ≤ x ∧ x ≤ INT_MAX

instance (x : Int) : Decidable (isInt32 x) := by unfold isInt32; infer_instance

/-! ## Data model -/

/-- Modelled from the spec: `struct ClusterMachine` is declared in a header
that is not among the sources.  The fields are those machine.cc reads or
writes.  `ip` is the 32-bit unsigned address and `cluster_port` the `int` port
that `add_machine` receives; `hostname_len` is the `int` compared with 0 and
passed to `malloc`; `dead` is assigned `true` / `false`; `now_connections` is
the count of active connections, an `int` like the local `count` it is
assigned to, stepped by `++` and `--`. -/
structure ClusterMachine where
  dead : Bool
  hostname : Option (List Char)
  hostname_len : Int
  ip : Nat
  cluster_port : Int
  now_connections : Int
deriving DecidableEq

/-- A record after `memset(.., 0, ..)`. -/
def ClusterMachine.zero : ClusterMachine :=
  { dead := false, hostname := none, hostname_len := 0, ip := 0,
    cluster_port := 0, now_connections := 0 }

/-- The globals of machine.cc: `cluster_machine_count`, the backing store
`cluster_machines` and the pointer index `sorted_machines`. -/
structure Table where
  cluster_machine_count : Nat
  cluster_machines : List ClusterMachine
  sorted_machines : List (Option Nat)
deriving DecidableEq

/-- Modelled from the spec: `SocketContext` is declared outside the sources; it
binds a socket to its owning machine.  Kept here are the `machine` pointer the
connection functions go through and the `connect_type` shown in the debug
line. -/
structure SocketContext where
  machine : Nat
  connect_type : Char
deriving DecidableEq

/-- The globals as the program starts: count 0 and both pointers `NULL`. -/
def startup : Table :=
  { cluster_machine_count := 0, cluster_machines := [], sorted_machines := [] }

/-- Reading `*p` for a machine pointer `p`.  Dereferencing `NULL` or a pointer
outside the store is undefined in C; the embedding returns a zeroed record
there. -/
def deref (t : Table) (p : Option Nat) : ClusterMachine :=
  match p with
  | some i => t.cluster_machines.getD i ClusterMachine.zero
  | none => ClusterMachine.zero

/-- Reading `sorted_machines[i]`. -/
def sortedAt (t : Table) (i : Nat) : Option Nat :=
  t.sorted_machines.getD i none

/-! ## init_machines -/

/-- Function `init_machines`: `lock_result` is what `ink_mutex_init` returns,
`alloc_machines` and `alloc_sorted` tell whether the two `malloc` calls
succeed.  Returns the result code and the globals afterwards. -/
def init_machines (MAX : Nat) (lock_result : Int) (alloc_machines alloc_sorted : Bool)
    (t : Table) : Int × Table :=
  if lock_result ≠ 0 then (lock_result, t)
  else
    let t1 : Table := { t with cluster_machine_count := 0 }
    if !alloc_machines then (ENOMEM, { t1 with cluster_machines := [] })
    else
      let t2 : Table :=
        { t1 with cluster_machines := List.replicate MAX ClusterMachine.zero }
      if !alloc_sorted then (ENOMEM, { t2 with sorted_machines := [] })
      else (0, { t2 with sorted_machines := List.replicate MAX none })

/-- The table right after a successful `init_machines`. -/
def emptyTable (MAX : Nat) : Table := (init_machines MAX 0 true true startup).2

/-! ## compare_machine -/

/-- Function `compare_machine`: ip as unsigned, then the `int` difference of the
ports. -/
def compare_machine (m1 m2 : ClusterMachine) : Int :=
  if m1.ip = m2.ip then wrapInt32 (m1.cluster_port - m2.cluster_port)
  else if m1.ip < m2.ip then -1 else 1

/-! ## do_add_machine -/

/-- The scan of `do_add_machine` (lines 125-130): `i` is the position of
`ppMachine`, `cr` the last comparison.  The first argument bounds the number
of iterations; `cluster_machine_count` of them always suffice. -/
def scan_loop (t : Table) (m : ClusterMachine) : Nat → Nat → Int → Nat × Int
  | 0, i, cr => (i, cr)
  | fuel + 1, i, cr =>
    if i < t.cluster_machine_count then
      let cr1 := compare_machine m (deref t (sortedAt t i))
      if cr1 ≤ 0 then (i, cr1) else scan_loop t m fuel (i + 1) cr1
    else (i, cr)

/-- The shift of `do_add_machine` (lines 148-150): for `pp` from the end
down to `pos + 1`, `sorted[pp] = sorted[pp - 1]`. -/
def shift_loop (pos : Nat) : Nat → List (Option Nat) → List (Option Nat)
  | 0, s => s
  | pp + 1, s =>
    if pp + 1 > pos then shift_loop pos pp (s.set (pp + 1) (s.getD pp none)) else s

/-- Function `do_add_machine`: returns the globals afterwards, the returned pointer and
the value stored in `*result`.  `malloc_ok` tells whether the `malloc` of the
hostname copy (line 163) succeeds. -/
def do_add_machine (MAX : Nat) (malloc_ok : Bool) (m : ClusterMachine) (t : Table) :
    Table × Option Nat × Int :=
  let found := scan_loop t m t.cluster_machine_count 0 (-1)
  let pos := found.1
  let cr := found.2
  if cr = 0 then (t, sortedAt t pos, EEXIST)
  else if t.cluster_machine_count ≥ MAX then (t, none, ENOSPC)
  else
    let shifted := shift_loop pos t.cluster_machine_count t.sorted_machines
    let pMachine := t.cluster_machine_count
    let sorted1 := shifted.set pos (some pMachine)
    let old := t.cluster_machines.getD pMachine ClusterMachine.zero
    let rec1 : ClusterMachine :=
      { old with dead := true, ip := m.ip, cluster_port := m.cluster_port,
                 hostname_len := m.hostname_len }
    let copy : List Char := (m.hostname.getD []).take m.hostname_len.toNat
    if m.hostname_len = 0 then
      ({ cluster_machine_count := t.cluster_machine_count + 1,
         cluster_machines := t.cluster_machines.set pMachine { rec1 with hostname := none },
         sorted_machines := sorted1 }, some pMachine, 0)
    else if malloc_ok then
      ({ cluster_machine_count := t.cluster_machine_count + 1,
         cluster_machines := t.cluster_machines.set pMachine { rec1 with hostname := some copy },
         sorted_machines := sorted1 }, some pMachine, 0)
    else
      ({ cluster_machine_count := t.cluster_machine_count,
         cluster_machines := t.cluster_machines.set pMachine { rec1 with hostname := none },
         sorted_machines := sorted1 }, some pMachine, ENOMEM)

/-! ## add_machine -/

/-- Decimal text of one octet. -/
def octet (n : Nat) : List Char := Nat.toDigits 10 (n % 256)

/-- The C library's `inet_ntoa`: dotted-decimal text of an address held in
network byte order.  The octets are taken in memory order of a little-endian
host, lowest byte of `ip` first. -/
def inet_ntoa (ip : Nat) : List Char :=
  octet ip ++ '.' :: octet (ip / 256) ++ '.' :: octet (ip / 65536) ++ '.' :: octet (ip / 16777216)

/-- The local `machine` that `add_machine` builds (lines 59-65); `strdup` is
taken to succeed. -/
def candidate (ip : Nat) (port : Int) : ClusterMachine :=
  { ClusterMachine.zero with
    hostname_len := (inet_ntoa ip).length, hostname := some (inet_ntoa ip),
    cluster_port := port, ip := ip }

/-- Function `add_machine`: the local `result` is dropped, only the pointer is
returned. -/
def add_machine (MAX : Nat) (malloc_ok : Bool) (ip : Nat) (port : Int) (t : Table) :
    Table × Option Nat :=
  let r := do_add_machine MAX malloc_ok (candidate ip port) t
  (r.1, r.2.1)

/-! ## get_machine -/

/-- The C library's `bsearch` over `sorted_machines[0 .. nmemb)` with
`compare_machine`: halve `[l, u)` until the key is met.  The first argument
bounds the number of iterations; `u - l` of them always suffice. -/
def bsearch_loop (t : Table) (key : ClusterMachine) : Nat → Nat → Nat → Option Nat
  | 0, _, _ => none
  | fuel + 1, l, u =>
    if l < u then
      let idx := (l + u) / 2
      let c := compare_machine key (deref t (sortedAt t idx))
      if c < 0 then bsearch_loop t key fuel l idx
      else if c > 0 then bsearch_loop t key fuel (idx + 1) u
      else some idx
    else none

/-- Function `get_machine`: the pointer found by `bsearch`, or `NULL`. -/
def get_machine (ip : Nat) (port : Int) (t : Table) : Option Nat :=
  let machine : ClusterMachine := { ClusterMachine.zero with ip := ip, cluster_port := port }
  match bsearch_loop t machine t.cluster_machine_count 0 t.cluster_machine_count with
  | some idx => sortedAt t idx
  | none => none

/-! ## Liveness and connection accounting -/

/-- Writing through a machine pointer. -/
def store (t : Table) (h : Nat) (m : ClusterMachine) : Table :=
  { t with cluster_machines := t.cluster_machines.set h m }

/-- Function `machine_up_notify`: returns the globals afterwards, the machines passed
to `cluster_machine_change_notify` (in call order) and the result code. -/
def machine_up_notify (machine : Option Nat) (t : Table) : Table × List Nat × Int :=
  match machine with
  | none => (t, [], ENOENT)
  | some h =>
    let m := deref t (some h)
    if m.dead then (store t h { m with dead := false }, [h], 0)
    else (t, [], 0)

/-- Function `machine_add_connection`: `epoll_result` is what `nio_add_to_epoll`
returns; `count = ++now_connections` is an `int`. -/
def machine_add_connection (epoll_result : Int) (pSockContext : SocketContext) (t : Table) :
    Table × List Nat × Int :=
  if epoll_result ≠ 0 then (t, [], epoll_result)
  else
    let m := deref t (some pSockContext.machine)
    let count := wrapInt32 (m.now_connections + 1)
    (store t pSockContext.machine { m with now_connections := count }, [], 0)

/-- Function `machine_remove_connection`: `remove_result` is what
`remove_machine_sock_context` returns; `count = --now_connections` is an
`int`. -/
def machine_remove_connection (remove_result : Int) (pSockContext : SocketContext)
    (t : Table) : Table × List Nat × Int :=
  if remove_result ≠ 0 then (t, [], remove_result)
  else
    let m := deref t (some pSockContext.machine)
    let count := wrapInt32 (m.now_connections - 1)
    let m1 : ClusterMachine := { m with now_connections := count }
    if count = 0 ∧ m1.dead = false then
      (store t pSockContext.machine { m1 with dead := true }, [pSockContext.machine], 0)
    else (store t pSockContext.machine m1, [], 0)

/-! ## Call sequences -/

/-- One `add_machine` call together with the outcome of its `malloc`. -/
structure Call where
  ip : Nat
  port : Int
  malloc_ok : Bool
deriving DecidableEq

/-- The globals after one call. -/
def step (MAX : Nat) (t : Table) (c : Call) : Table :=
  (add_machine MAX c.malloc_ok c.ip c.port t).1

/-- The globals after a sequence of calls. -/
def run (MAX : Nat) (calls : List Call) (t : Table) : Table :=
  calls.foldl (step MAX) t

/-- The `(ip, cluster_port)` key of the machine at index position `i`. -/
def keyAt (t : Table) (i : Nat) : Nat × Int :=
  ((deref t (sortedAt t i)).ip, (deref t (sortedAt t i)).cluster_port)

/-! ## Predicates and sample tables used by the theorems -/

/-- Lexicographic order on `(ip, cluster_port)` keys. -/
def keyLt (a b : Nat × Int) : Prop := a.1 < b.1 ∨ (a.1 = b.1 ∧ a.2 < b.2)

instance (a b : Nat × Int) : Decidable (keyLt a b) := by unfold keyLt; infer_instance

/-- The keys of the first `cluster_machine_count` index entries, in index
order. -/
def indexKeys (t : Table) : List (Nat × Int) :=
  (List.range t.cluster_machine_count).map (keyAt t)

/-- The first `cluster_machine_count` index entries are strictly ascending by
key. -/
def IndexSorted (t : Table) : Prop := (indexKeys t).Pairwise keyLt

instance (t : Table) : Decidable (IndexSorted t) := by unfold IndexSorted; infer_instance

/-- The record a successful `add_machine ip port` leaves in a zeroed slot. -/
def fresh (ip : Nat) (port : Int) : ClusterMachine :=
  { dead := true, hostname := some (inet_ntoa ip), hostname_len := (inet_ntoa ip).length,
    ip := ip, cluster_port := port, now_connections := 0 }

/-- Calls for the given keys, each with a successful hostname allocation. -/
def okCalls (keys : List (Nat × Int)) : List Call :=
  keys.map (fun k => { ip := k.1, port := k.2, malloc_ok := true })

/-- Shape of a table in which exactly the keys `ks` have been inserted, in
this order, and nothing else has been written: slot `s` holds the record of
`ks[s]`, the other slots are zeroed, and the first `cluster_machine_count`
index entries are the pointers to slots `0 .. count - 1` in some order. -/
structure Inv (MAX : Nat) (t : Table) (ks : List (Nat × Int)) : Prop where
  store_eq : t.cluster_machines =
    ks.map (fun k => fresh k.1 k.2) ++ List.replicate (MAX - ks.length) ClusterMachine.zero
  index_len : t.sorted_machines.length = MAX
  count_eq : t.cluster_machine_count = ks.length
  count_le : ks.length ≤ MAX
  index_perm : (t.sorted_machines.take t.cluster_machine_count).Perm
    ((List.range t.cluster_machine_count).map some)

/-- The `(ip, cluster_port)` key of a record. -/
def keyOf (m : ClusterMachine) : Nat × Int := (m.ip, m.cluster_port)

/-- A TCP port number. -/
def isPort (p : Int) : Prop := 0 ≤ p ∧ p ≤ 65535

instance (p : Int) : Decidable (isPort p) := by unfold isPort; infer_instance

/-- Shape of a table built from the empty one by calls with port numbers in
0..65535 whose allocations all succeeded: `Inv`, distinct keys, and a strictly
ascending index. -/
structure Good (MAX : Nat) (t : Table) (ks : List (Nat × Int)) : Prop where
  inv : Inv MAX t ks
  ports : ∀ k ∈ ks, isPort k.2
  nodup : ks.Nodup
  sorted : IndexSorted t

/-- The keys stored after a sequence of calls whose allocations succeed: a
call adds its key unless the key is already stored or the table is full. -/
def insertedKeys (MAX : Nat) : List Call → List (Nat × Int) → List (Nat × Int)
  | [], ks => ks
  | c :: cs, ks =>
    if (c.ip, c.port) ∈ ks ∨ MAX ≤ ks.length then insertedKeys MAX cs ks
    else insertedKeys MAX cs (ks ++ [(c.ip, c.port)])

/-- Every call of the sequence has a port number and a successful hostname
allocation. -/
def allOk (calls : List Call) : Prop := ∀ c ∈ calls, c.malloc_ok = true ∧ isPort c.port

/-! Sample tables. -/

/-- Capacity 4, after `add_machine(1, 80)` and `add_machine(3, 80)`. -/
def twoMachines : Table := run 4 (okCalls [(1, 80), (3, 80)]) (emptyTable 4)

/-- Capacity 4, after `add_machine(2, 80)`, then `add_machine(1, 80)` whose
hostname allocation fails. -/
def afterFailedInsert : Table :=
  run 4 [⟨2, 80, true⟩, ⟨1, 80, false⟩] (emptyTable 4)

/-- Capacity 4, after `add_machine(5, 80)`, `add_machine(9, 80)`, then
`add_machine(7, 80)` whose hostname allocation fails. -/
def afterFailedMiddle : Table :=
  run 4 [⟨5, 80, true⟩, ⟨9, 80, true⟩, ⟨7, 80, false⟩] (emptyTable 4)

/-- A table with one inserted machine, used to instantiate the lifecycle
theorems. -/
def oneMachine : Table := run 2 [⟨1, 80, true⟩] (emptyTable 2)

/-- The same table with the machine marked up and holding one connection. -/
def oneMachineUp : Table :=
  (machine_add_connection 0 ⟨0, 'C'⟩ (machine_up_notify (some 0) oneMachine).1).1

/-! ## Registry call sequences, frame and insertion point -/

/-- What a lifecycle call on `target` may not touch, between the table `t`
before and the table `t1` after: the index, the count, the size of the store,
every machine's `ip`, `cluster_port`, `hostname` and `hostname_len`, every
record other than the target's, and every result of `get_machine`. -/
def FrameExcept (t t1 : Table) (target : Option Nat) : Prop :=
  t1.sorted_machines = t.sorted_machines ∧
  t1.cluster_machine_count = t.cluster_machine_count ∧
  t1.cluster_machines.length = t.cluster_machines.length ∧
  (∀ k : Nat, (deref t1 (some k)).ip = (deref t (some k)).ip ∧
    (deref t1 (some k)).cluster_port = (deref t (some k)).cluster_port ∧
    (deref t1 (some k)).hostname = (deref t (some k)).hostname ∧
    (deref t1 (some k)).hostname_len = (deref t (some k)).hostname_len) ∧
  (∀ k : Nat, some k ≠ target → t1.cluster_machines[k]? = t.cluster_machines[k]?) ∧
  (∀ (ip : Nat) (port : Int), get_machine ip port t1 = get_machine ip port t)

/-- The first `cluster_machine_count` index entries are the pointers to slots
`0 .. cluster_machine_count - 1` in some order. -/
def IndexCoversStore (t : Table) : Prop :=
  (t.sorted_machines.take t.cluster_machine_count).Perm
    ((List.range t.cluster_machine_count).map some)

/-- One call into the registry with the outcomes of what it calls outside:
`add_machine` with its allocation, `machine_up_notify`, `machine_add_connection`
with the result of `nio_add_to_epoll`, `machine_remove_connection` with the
result of `remove_machine_sock_context`. -/
inductive Op where
  | add (c : Call)
  | up (machine : Option Nat)
  | connect (epoll_result : Int) (ctx : SocketContext)
  | disconnect (remove_result : Int) (ctx : SocketContext)
deriving DecidableEq

/-- The globals after one registry call. -/
def applyOp (MAX : Nat) (t : Table) : Op → Table
  | Op.add c => step MAX t c
  | Op.up machine => (machine_up_notify machine t).1
  | Op.connect r ctx => (machine_add_connection r ctx t).1
  | Op.disconnect r ctx => (machine_remove_connection r ctx t).1

/-- The globals after a sequence of registry calls. -/
def runOps (MAX : Nat) (ops : List Op) (t : Table) : Table :=
  ops.foldl (applyOp MAX) t

/-- Every `machine_remove_connection` of the sequence whose deregistration
succeeds is applied to a machine that holds at least one connection at that
moment, and every `machine_add_connection` whose registration succeeds to a
machine that holds fewer than `INT_MAX` connections. -/
def callsCovered (MAX : Nat) : List Op → Table → Prop
  | [], _ => True
  | Op.connect r ctx :: rest, t =>
    (r = 0 → (deref t (some ctx.machine)).now_connections < INT_MAX) ∧
      callsCovered MAX rest (applyOp MAX t (Op.connect r ctx))
  | Op.disconnect r ctx :: rest, t =>
    (r = 0 → 1 ≤ (deref t (some ctx.machine)).now_connections) ∧
      callsCovered MAX rest (applyOp MAX t (Op.disconnect r ctx))
  | op :: rest, t => callsCovered MAX rest (applyOp MAX t op)

/-- Capacity 2, after an `add_machine(1, 80)` whose hostname allocation fails
(it returns slot 0 all the same) and a successful `machine_add_connection`
through the returned pointer. -/
def connectedHalfBuilt : Table :=
  runOps 2 [Op.add ⟨1, 80, false⟩, Op.connect 0 ⟨0, 'C'⟩] (emptyTable 2)

/-- The table `connectedHalfBuilt` after a successful `add_machine(2, 80)`,
which takes slot 0. -/
def reusedSlot : Table := runOps 2 [Op.add ⟨2, 80, true⟩] connectedHalfBuilt

/-- The same call made `n` times in a row: the globals afterwards and the
notifications in call order. -/
def repeatCall (op : Table → Table × List Nat × Int) : Nat → Table → Table × List Nat
  | 0, t => (t, [])
  | n + 1, t => ((repeatCall op n (op t).1).1, (op t).2.1 ++ (repeatCall op n (op t).1).2)

/-- The scenario `notify_up`, then `n` successful `add_connection` calls, then
`n` successful `remove_connection` calls on the machine of `ctx`: the globals
afterwards and all notifications in call order. -/
def upAddRemove (n : Nat) (ctx : SocketContext) (t : Table) : Table × List Nat :=
  let r1 := machine_up_notify (some ctx.machine) t
  let r2 := repeatCall (machine_add_connection 0 ctx) n r1.1
  let r3 := repeatCall (machine_remove_connection 0 ctx) n r2.1
  (r3.1, r1.2.1 ++ r2.2 ++ r3.2)

/-- Lower-bound binary search as the spec words it: halve `[lo, hi)` looking
for the smallest position whose key is not below `k`.  The first argument
bounds the number of iterations; `hi - lo` of them always suffice. -/
def spec_lower_bound_loop (t : Table) (k : Nat × Int) : Nat → Nat → Nat → Nat
  | 0, lo, _ => lo
  | fuel + 1, lo, hi =>
    if lo < hi then
      if keyLt (keyAt t ((lo + hi) / 2)) k then
        spec_lower_bound_loop t k fuel ((lo + hi) / 2 + 1) hi
      else spec_lower_bound_loop t k fuel lo ((lo + hi) / 2)
    else lo

/-- The insertion point of the spec: lower-bound binary search over the first
`cluster_machine_count` index entries. -/
def spec_insertion_point (t : Table) (k : Nat × Int) : Nat :=
  spec_lower_bound_loop t k t.cluster_machine_count 0 t.cluster_machine_count

/-! # Theorems -/

/-! ## The two loops of do_add_machine -/

theorem shift_loop_length (pos : Nat) : ∀ (n : Nat) (s : List (Option Nat)),
    (shift_loop pos n s).length = s.length
  | 0, s => rfl
  | n + 1, s => by
    unfold shift_loop
    split
    · rw [shift_loop_length pos n]; simp
    · rfl

theorem shift_loop_getElem (pos : Nat) : ∀ (n : Nat) (s : List (Option Nat)),
    n < s.length → ∀ j : Nat,
      (shift_loop pos n s)[j]? = if pos < j ∧ j ≤ n then s[j - 1]? else s[j]?
  | 0, s => by
    intro _ j
    have : ¬ (pos < j ∧ j ≤ 0) := by omega
    rw [if_neg this]
    rfl
  | n + 1, s => by
    intro hn j
    unfold shift_loop
    by_cases hp : n + 1 > pos
    · rw [if_pos hp]
      have hn' : n < (s.set (n + 1) (s.getD n none)).length := by simp; omega
      rw [shift_loop_getElem pos n _ hn' j]
      by_cases hj : j ≤ n
      · by_cases hpj : pos < j
        · have h1 : pos < j ∧ j ≤ n := ⟨hpj, hj⟩
          have h2 : pos < j ∧ j ≤ n + 1 := ⟨hpj, by omega⟩
          rw [if_pos h1, if_pos h2, List.getElem?_set]
          have : ¬ (n + 1 = j - 1) := by omega
          simp [this]
        · have h1 : ¬ (pos < j ∧ j ≤ n) := fun h => hpj h.1
          have h2 : ¬ (pos < j ∧ j ≤ n + 1) := fun h => hpj h.1
          rw [if_neg h1, if_neg h2, List.getElem?_set]
          have : ¬ (n + 1 = j) := by omega
          simp [this]
      · have h1 : ¬ (pos < j ∧ j ≤ n) := fun h => hj h.2
        rw [if_neg h1, List.getElem?_set]
        by_cases hj1 : j = n + 1
        · subst hj1
          have h2 : pos < n + 1 ∧ n + 1 ≤ n + 1 := ⟨hp, le_refl _⟩
          have hn2 : n < s.length := by omega
          simp [h2, hn, List.getD_eq_getElem?_getD, List.getElem?_eq_getElem hn2]
        · have h2 : ¬ (pos < j ∧ j ≤ n + 1) := by omega
          have : ¬ (n + 1 = j) := fun h => hj1 h.symm
          simp [h2, this]
    · rw [if_neg hp]
      have h2 : ¬ (pos < j ∧ j ≤ n + 1) := by omega
      simp [h2]

/-- The index after the shift and the store at `pos`, cut at the new count:
the old entries with `x` put in at `pos`. -/
theorem shift_set_take (s : List (Option Nat)) (pos n : Nat) (x : Option Nat)
    (hpos : pos ≤ n) (hn : n < s.length) :
    (((shift_loop pos n s).set pos x).take (n + 1)) =
      s.take pos ++ x :: (s.take n).drop pos := by
  apply List.ext_getElem?
  intro j
  rw [List.getElem?_take]
  by_cases hj : j < n + 1
  · rw [if_pos hj, List.getElem?_set, shift_loop_length, shift_loop_getElem pos n s hn j]
    by_cases h1 : j < pos
    · have : ¬ (pos = j) := by omega
      have h2 : ¬ (pos < j ∧ j ≤ n) := by omega
      rw [if_neg this, if_neg h2, List.getElem?_append_left (by simp; omega)]
      simp [List.getElem?_take, h1]
    · by_cases h3 : pos = j
      · subst h3
        have hl : (s.take pos).length = pos := by simp; omega
        rw [if_pos rfl, if_pos (by omega), List.getElem?_append_right (by omega)]
        simp [hl]
      · have h2 : pos < j ∧ j ≤ n := by omega
        have hl : (s.take pos).length = pos := by simp; omega
        rw [if_neg h3, if_pos h2, List.getElem?_append_right (by omega), hl]
        obtain ⟨d, hd⟩ : ∃ d, j = pos + 1 + d := ⟨j - pos - 1, by omega⟩
        subst hd
        have e1 : pos + 1 + d - pos = d + 1 := by omega
        have e2 : pos + 1 + d - 1 = pos + d := by omega
        rw [e1, e2]
        simp only [List.getElem?_cons_succ, List.getElem?_drop, List.getElem?_take]
        have h5 : pos + d < n := by omega
        simp [h5]
  · rw [if_neg hj]
    symm
    apply List.getElem?_eq_none
    simp
    omega


/-- What the scan returns: the first position among the indexed entries whose
machine does not compare below `m`, with the comparison made there; or the
count, with a non-zero `cr`, when there is none. -/
theorem scan_loop_spec (t : Table) (m : ClusterMachine) :
    ∀ (fuel i : Nat) (cr : Int), i + fuel = t.cluster_machine_count →
      i ≤ (scan_loop t m fuel i cr).1 ∧
      (scan_loop t m fuel i cr).1 ≤ t.cluster_machine_count ∧
      (∀ j, i ≤ j → j < (scan_loop t m fuel i cr).1 →
        0 < compare_machine m (deref t (sortedAt t j))) ∧
      ((scan_loop t m fuel i cr).1 < t.cluster_machine_count →
        (scan_loop t m fuel i cr).2 =
          compare_machine m (deref t (sortedAt t (scan_loop t m fuel i cr).1)) ∧
        (scan_loop t m fuel i cr).2 ≤ 0) ∧
      ((scan_loop t m fuel i cr).1 = t.cluster_machine_count →
        (scan_loop t m fuel i cr).2 = cr ∨ 0 < (scan_loop t m fuel i cr).2)
  | 0, i, cr => by
    intro h
    simp only [scan_loop]
    refine ⟨le_refl _, by omega, ?_, ?_, ?_⟩
    · intro j h1 h2; omega
    · intro h1; omega
    · intro _; exact Or.inl trivial
  | fuel + 1, i, cr => by
    intro h
    have hi : i < t.cluster_machine_count := by omega
    unfold scan_loop
    rw [if_pos hi]
    by_cases hc : compare_machine m (deref t (sortedAt t i)) ≤ 0
    · simp only [hc, if_true]
      refine ⟨le_refl _, by omega, ?_, ?_, ?_⟩
      · intro j h1 h2; omega
      · intro _; exact ⟨trivial, trivial⟩
      · intro h1; omega
    · simp only [hc, if_false]
      have ih := scan_loop_spec t m fuel (i + 1) (compare_machine m (deref t (sortedAt t i)))
        (by omega)
      obtain ⟨ih1, ih2, ih3, ih4, ih5⟩ := ih
      refine ⟨by omega, ih2, ?_, ih4, ?_⟩
      · intro j h1 h2
        by_cases hj : j = i
        · subst hj; exact not_le.mp hc
        · exact ih3 j (by omega) h2
      · intro h1
        rcases ih5 h1 with h6 | h6
        · right; rw [h6]; exact not_le.mp hc
        · exact Or.inr h6

/-- The scan of `do_add_machine` reports a match only at an indexed position
whose machine compares equal to the candidate. -/
theorem scan_found (t : Table) (m : ClusterMachine)
    (h : (scan_loop t m t.cluster_machine_count 0 (-1)).2 = 0) :
    (scan_loop t m t.cluster_machine_count 0 (-1)).1 < t.cluster_machine_count ∧
    compare_machine m
      (deref t (sortedAt t (scan_loop t m t.cluster_machine_count 0 (-1)).1)) = 0 := by
  obtain ⟨_, h2, _, h4, h5⟩ := scan_loop_spec t m t.cluster_machine_count 0 (-1) (by omega)
  have hlt : (scan_loop t m t.cluster_machine_count 0 (-1)).1 < t.cluster_machine_count := by
    rcases Nat.lt_or_ge (scan_loop t m t.cluster_machine_count 0 (-1)).1
      t.cluster_machine_count with h6 | h6
    · exact h6
    · exfalso
      rcases h5 (by omega) with h7 | h7
      · rw [h] at h7; cases h7
      · rw [h] at h7; exact absurd h7 (by decide)
  exact ⟨hlt, by rw [← (h4 hlt).1]; exact h⟩

/-- Two `int` ports give a zero comparison only when they are equal. -/
theorem wrapInt32_sub_eq_zero (a b : Int) (ha : isInt32 a) (hb : isInt32 b)
    (h : wrapInt32 (a - b) = 0) : a = b := by
  unfold isInt32 INT_MIN INT_MAX at ha hb
  unfold wrapInt32 at h
  omega

theorem compare_machine_eq_zero (m1 m2 : ClusterMachine) (h1 : isInt32 m1.cluster_port)
    (h2 : isInt32 m2.cluster_port) (h : compare_machine m1 m2 = 0) :
    m1.ip = m2.ip ∧ m1.cluster_port = m2.cluster_port := by
  unfold compare_machine at h
  by_cases hip : m1.ip = m2.ip
  · rw [if_pos hip] at h
    exact ⟨hip, wrapInt32_sub_eq_zero _ _ h1 h2 h⟩
  · rw [if_neg hip] at h
    split at h <;> cases h


theorem inet_ntoa_length_pos (ip : Nat) : 0 < (inet_ntoa ip).length := by
  simp [inet_ntoa]

theorem candidate_hostname_len (ip : Nat) (port : Int) : (candidate ip port).hostname_len ≠ 0 := by
  have := inet_ntoa_length_pos ip
  simp only [candidate]
  omega

theorem emptyTable_eq (MAX : Nat) :
    emptyTable MAX = { cluster_machine_count := 0,
                       cluster_machines := List.replicate MAX ClusterMachine.zero,
                       sorted_machines := List.replicate MAX none } := by
  simp [emptyTable, init_machines, startup]

theorem inv_emptyTable (MAX : Nat) : Inv MAX (emptyTable MAX) [] := by
  rw [emptyTable_eq]
  constructor <;> simp

theorem Inv.store_len {MAX : Nat} {t : Table} {ks : List (Nat × Int)} (h : Inv MAX t ks) :
    t.cluster_machines.length = MAX := by
  rw [h.store_eq]
  have := h.count_le
  simp
  omega

/-- Under `Inv`, an indexed position below the count points to a slot that
holds the record of one of the inserted keys. -/
theorem Inv.deref_indexed {MAX : Nat} {t : Table} {ks : List (Nat × Int)} (h : Inv MAX t ks)
    (i : Nat) (hi : i < t.cluster_machine_count) :
    ∃ s k, sortedAt t i = some s ∧ s < ks.length ∧ ks[s]? = some k ∧
      deref t (some s) = fresh k.1 k.2 := by
  have hlen := h.index_len
  have hcl := h.count_le
  have hce := h.count_eq
  have hmem : sortedAt t i ∈ t.sorted_machines.take t.cluster_machine_count := by
    have hi2 : i < (t.sorted_machines.take t.cluster_machine_count).length := by
      simp; omega
    have : (t.sorted_machines.take t.cluster_machine_count)[i] = sortedAt t i := by
      have hi3 : i < t.sorted_machines.length := by omega
      simp [sortedAt, List.getD_eq_getElem?_getD, List.getElem?_eq_getElem hi3]
    rw [← this]
    exact List.getElem_mem _
  have hmem2 := (h.index_perm.mem_iff).mp hmem
  simp only [List.mem_map, List.mem_range] at hmem2
  obtain ⟨s, hs, hs2⟩ := hmem2
  have hs3 : s < ks.length := by omega
  refine ⟨s, ks[s], hs2.symm, hs3, List.getElem?_eq_getElem hs3, ?_⟩
  simp only [deref, h.store_eq, List.getD_eq_getElem?_getD]
  rw [List.getElem?_append_left (by simpa using hs3)]
  simp [hs3]


/-- Under `Inv`, the scan reports a match only for a key that was inserted. -/
theorem Inv.scan_match_mem {MAX : Nat} {t : Table} {ks : List (Nat × Int)} (h : Inv MAX t ks)
    (ip : Nat) (port : Int) (hport : isInt32 port) (hports : ∀ k ∈ ks, isInt32 k.2)
    (hcr : (scan_loop t (candidate ip port) t.cluster_machine_count 0 (-1)).2 = 0) :
    (ip, port) ∈ ks := by
  obtain ⟨hlt, hcmp⟩ := scan_found t (candidate ip port) hcr
  obtain ⟨s, k, hs, _, hk, hd⟩ := h.deref_indexed _ hlt
  rw [hs, hd] at hcmp
  have hkm : k ∈ ks := List.getElem?_mem hk
  have := compare_machine_eq_zero (candidate ip port) (fresh k.1 k.2) hport (hports k hkm) hcmp
  simp only [candidate, fresh] at this
  have hk2 : (ip, port) = k := Prod.ext this.1 this.2
  rw [hk2]; exact hkm

/-- The outcome of `do_add_machine` when the scan finds no match, there is
room, the candidate has a hostname and the allocation succeeds. -/
theorem do_add_machine_insert (MAX : Nat) (m : ClusterMachine) (t : Table)
    (hcr : (scan_loop t m t.cluster_machine_count 0 (-1)).2 ≠ 0)
    (hroom : t.cluster_machine_count < MAX) (hlen : m.hostname_len ≠ 0) :
    do_add_machine MAX true m t =
      ({ cluster_machine_count := t.cluster_machine_count + 1,
         cluster_machines := t.cluster_machines.set t.cluster_machine_count
           { dead := true,
             hostname := some ((m.hostname.getD []).take m.hostname_len.toNat),
             hostname_len := m.hostname_len, ip := m.ip, cluster_port := m.cluster_port,
             now_connections :=
               (t.cluster_machines.getD t.cluster_machine_count
                 ClusterMachine.zero).now_connections },
         sorted_machines :=
           (shift_loop (scan_loop t m t.cluster_machine_count 0 (-1)).1
             t.cluster_machine_count t.sorted_machines).set
             (scan_loop t m t.cluster_machine_count 0 (-1)).1 (some t.cluster_machine_count) },
       some t.cluster_machine_count, 0) := by
  have h2 : ¬ (t.cluster_machine_count ≥ MAX) := by omega
  simp [do_add_machine, hcr, h2, hlen]

/-- The outcome of `do_add_machine` on a full table when the scan finds no
match. -/
theorem do_add_machine_full (MAX : Nat) (b : Bool) (m : ClusterMachine) (t : Table)
    (hcr : (scan_loop t m t.cluster_machine_count 0 (-1)).2 ≠ 0)
    (hfull : MAX ≤ t.cluster_machine_count) :
    do_add_machine MAX b m t = (t, none, ENOSPC) := by
  simp [do_add_machine, hcr, hfull]

/-- When the scan finds no match, with room left and a successful allocation,
`do_add_machine` on an `add_machine` candidate returns the next free slot with
result 0 and extends the table shape by the candidate's key. -/
theorem Inv.insert_scan {MAX : Nat} {t : Table} {ks : List (Nat × Int)} (h : Inv MAX t ks)
    (ip : Nat) (port : Int)
    (hcr : (scan_loop t (candidate ip port) t.cluster_machine_count 0 (-1)).2 ≠ 0)
    (hroom : ks.length < MAX) :
    (do_add_machine MAX true (candidate ip port) t).2 = (some ks.length, 0) ∧
    Inv MAX (do_add_machine MAX true (candidate ip port) t).1 (ks ++ [(ip, port)]) := by
  have hce := h.count_eq
  rw [do_add_machine_insert MAX _ t hcr (by omega) (candidate_hostname_len ip port)]
  obtain ⟨_, hpos, _, _, _⟩ :=
    scan_loop_spec t (candidate ip port) t.cluster_machine_count 0 (-1) (by omega)
  generalize (scan_loop t (candidate ip port) t.cluster_machine_count 0 (-1)).1 = pos at hpos
  refine ⟨by simp [hce], ?_⟩
  have hold : t.cluster_machines.getD t.cluster_machine_count ClusterMachine.zero =
      ClusterMachine.zero := by
    rw [h.store_eq, hce, List.getD_eq_getElem?_getD,
      List.getElem?_append_right (by simp)]
    simp [List.getElem?_replicate, hroom]
  constructor
  · -- store
    simp only [hold]
    rw [h.store_eq, hce]
    apply List.ext_getElem?
    intro j
    rw [List.getElem?_set]
    simp only [List.length_append, List.length_map, List.length_replicate, List.map_append,
      List.map_cons, List.map_nil, List.append_assoc, List.singleton_append]
    by_cases hj : ks.length = j
    · subst hj
      have h1 : ks.length < ks.length + (MAX - ks.length) := by omega
      rw [if_pos rfl, if_pos h1, List.getElem?_append_right (by simp)]
      simp [candidate, fresh, ClusterMachine.zero]
    · rw [if_neg hj]
      by_cases hj2 : j < ks.length
      · rw [List.getElem?_append_left (by simpa using hj2),
          List.getElem?_append_left (by simpa using hj2)]
      · rw [List.getElem?_append_right (by simp; omega),
          List.getElem?_append_right (by simp; omega)]
        simp only [List.length_map]
        obtain ⟨d, hd⟩ : ∃ d, j = ks.length + 1 + d := ⟨j - ks.length - 1, by omega⟩
        subst hd
        have e1 : ks.length + 1 + d - ks.length = d + 1 := by omega
        rw [e1, List.getElem?_cons_succ, List.getElem?_replicate, List.getElem?_replicate]
        by_cases hd2 : d + 1 < MAX - ks.length
        · have hd3 : d < MAX - (ks.length + [(ip, port)].length) := by simp; omega
          rw [if_pos hd2, if_pos hd3]
        · have hd3 : ¬ d < MAX - (ks.length + [(ip, port)].length) := by simp; omega
          rw [if_neg hd2, if_neg hd3]
  · simp [shift_loop_length, h.index_len]
  · simp [hce]
  · simp; omega
  · -- index
    show ((((shift_loop pos t.cluster_machine_count t.sorted_machines).set pos
        (some t.cluster_machine_count)).take (t.cluster_machine_count + 1))).Perm
        ((List.range (t.cluster_machine_count + 1)).map some)
    rw [shift_set_take _ _ _ _ hpos (by rw [h.index_len]; omega)]
    have e : t.sorted_machines.take pos = (t.sorted_machines.take t.cluster_machine_count).take pos := by
      rw [List.take_take, Nat.min_eq_left hpos]
    rw [e, List.range_succ, List.map_append]
    refine List.Perm.trans List.perm_middle ?_
    refine List.Perm.trans ?_ (List.perm_append_singleton _ _).symm
    refine List.Perm.cons _ ?_
    rw [List.take_append_drop]
    exact h.index_perm

/-- Inserting a key that is not yet in the table, with room left and a
successful allocation, returns the next free slot with result 0 and extends
the table shape by that key. -/
theorem Inv.insert_new {MAX : Nat} {t : Table} {ks : List (Nat × Int)} (h : Inv MAX t ks)
    (ip : Nat) (port : Int) (hport : isInt32 port) (hports : ∀ k ∈ ks, isInt32 k.2)
    (hnew : (ip, port) ∉ ks) (hroom : ks.length < MAX) :
    (do_add_machine MAX true (candidate ip port) t).2 = (some ks.length, 0) ∧
    Inv MAX (do_add_machine MAX true (candidate ip port) t).1 (ks ++ [(ip, port)]) :=
  h.insert_scan ip port (fun hc => hnew (h.scan_match_mem ip port hport hports hc)) hroom


theorem do_add_machine_count_le (MAX : Nat) (b : Bool) (m : ClusterMachine) (t : Table)
    (h : t.cluster_machine_count ≤ MAX) :
    (do_add_machine MAX b m t).1.cluster_machine_count ≤ MAX := by
  unfold do_add_machine
  simp only
  split
  · exact h
  · split
    · exact h
    · split
      · simp only; omega
      · split
        · simp only; omega
        · exact h

theorem run_count_le (MAX : Nat) (calls : List Call) :
    ∀ t : Table, t.cluster_machine_count ≤ MAX →
      (run MAX calls t).cluster_machine_count ≤ MAX := by
  induction calls with
  | nil => intro t h; exact h
  | cons c cs ih =>
    intro t h
    exact ih _ (do_add_machine_count_le MAX _ _ t h)

theorem run_append (MAX : Nat) (xs ys : List Call) (t : Table) :
    run MAX (xs ++ ys) t = run MAX ys (run MAX xs t) := by
  simp [run, List.foldl_append]

theorem okCalls_append (xs ys : List (Nat × Int)) :
    okCalls (xs ++ ys) = okCalls xs ++ okCalls ys := by
  simp [okCalls]

theorem run_okCalls_snoc (MAX : Nat) (ks : List (Nat × Int)) (k : Nat × Int) (t : Table) :
    run MAX (okCalls (ks ++ [k])) t =
      (do_add_machine MAX true (candidate k.1 k.2) (run MAX (okCalls ks) t)).1 := by
  rw [okCalls_append, run_append]
  rfl

/-- Distinct keys, inserted from the empty table with successful allocations
and within capacity, are all stored. -/
theorem inv_run_okCalls (MAX : Nat) (keys : List (Nat × Int)) :
    keys.Nodup → (∀ k ∈ keys, isInt32 k.2) → keys.length ≤ MAX →
      Inv MAX (run MAX (okCalls keys) (emptyTable MAX)) keys := by
  induction keys using List.reverseRecOn with
  | nil => intro _ _ _; exact inv_emptyTable MAX
  | append_singleton ks k ih =>
    intro hnd hports hlen
    rw [List.nodup_append] at hnd
    obtain ⟨hnd1, _, hdis⟩ := hnd
    have hnew : (k.1, k.2) ∉ ks := fun hm => hdis hm (List.mem_singleton_self k)
    have hlen2 : ks.length < MAX := by simp at hlen; omega
    have hp1 : ∀ k1 ∈ ks, isInt32 k1.2 := fun k1 hk1 => hports k1 (List.mem_append_left _ hk1)
    have hp2 : isInt32 k.2 := hports k (List.mem_append_right _ (List.mem_singleton_self k))
    rw [run_okCalls_snoc]
    exact ((ih hnd1 hp1 (by omega)).insert_new k.1 k.2 hp2 hp1 hnew hlen2).2

/-- C3: from the empty table of capacity `MAX`, inserting `MAX` distinct keys
(each hostname allocation succeeding) succeeds `MAX` times, the n-th call
returning slot `n` with result 0; the table then holds `MAX` machines, and a
call for any further key that is not among them, whatever its allocation would
do, returns `NULL` with `ENOSPC` and leaves index, store and count as they
were.  In every state reached from the empty table by any calls at all,
`cluster_machine_count` is at most `MAX`. -/
theorem capacity_enforced (MAX : Nat) (keys : List (Nat × Int)) (hnodup : keys.Nodup)
    (hlen : keys.length = MAX) (hports : ∀ k ∈ keys, isInt32 k.2) :
    (∀ (n : Nat) (k : Nat × Int), keys[n]? = some k →
      (do_add_machine MAX true (candidate k.1 k.2)
        (run MAX (okCalls (keys.take n)) (emptyTable MAX))).2 = (some n, 0) ∧
      add_machine MAX true k.1 k.2 (run MAX (okCalls (keys.take n)) (emptyTable MAX)) =
        (run MAX (okCalls (keys.take (n + 1))) (emptyTable MAX), some n)) ∧
    (run MAX (okCalls keys) (emptyTable MAX)).cluster_machine_count = MAX ∧
    (∀ (ip : Nat) (port : Int) (b : Bool), isInt32 port → (ip, port) ∉ keys →
      do_add_machine MAX b (candidate ip port) (run MAX (okCalls keys) (emptyTable MAX)) =
        (run MAX (okCalls keys) (emptyTable MAX), none, ENOSPC) ∧
      add_machine MAX b ip port (run MAX (okCalls keys) (emptyTable MAX)) =
        (run MAX (okCalls keys) (emptyTable MAX), none)) ∧
    (∀ calls : List Call, (run MAX calls (emptyTable MAX)).cluster_machine_count ≤ MAX) := by
  refine ⟨?_, ?_, ?_, ?_⟩
  · intro n k hk
    have hn : n < keys.length := by
      rcases Nat.lt_or_ge n keys.length with h | h
      · exact h
      · rw [List.getElem?_eq_none h] at hk; cases hk
    have hk2 : keys[n] = k := by
      rw [List.getElem?_eq_getElem hn] at hk; exact Option.some.inj hk
    have htake : keys.take (n + 1) = keys.take n ++ [k] := by
      rw [List.take_succ, hk]; rfl
    have hnd : (keys.take (n + 1)).Nodup := List.Nodup.sublist (List.take_sublist _ _) hnodup
    rw [htake, List.nodup_append] at hnd
    obtain ⟨hnd1, _, hdis⟩ := hnd
    have hnew : (k.1, k.2) ∉ keys.take n := fun hm => hdis hm (List.mem_singleton_self k)
    have hp1 : ∀ k1 ∈ keys.take n, isInt32 k1.2 :=
      fun k1 hk1 => hports k1 (List.mem_of_mem_take hk1)
    have hp2 : isInt32 k.2 := hports k (List.getElem?_mem hk)
    have hl : (keys.take n).length = n := by simp; omega
    have hinv := inv_run_okCalls MAX (keys.take n) hnd1 hp1 (by omega)
    have hins := (hinv.insert_new k.1 k.2 hp2 hp1 hnew (by omega)).1
    rw [hl] at hins
    refine ⟨hins, ?_⟩
    rw [htake, run_okCalls_snoc]
    simp only [add_machine, hins]
  · have hinv := inv_run_okCalls MAX keys hnodup hports (by omega)
    rw [hinv.count_eq, hlen]
  · intro ip port b hport hnew
    have hinv := inv_run_okCalls MAX keys hnodup hports (by omega)
    have hcr : (scan_loop (run MAX (okCalls keys) (emptyTable MAX)) (candidate ip port)
        (run MAX (okCalls keys) (emptyTable MAX)).cluster_machine_count 0 (-1)).2 ≠ 0 :=
      fun hc => hnew (hinv.scan_match_mem ip port hport hports hc)
    have hfull := do_add_machine_full MAX b (candidate ip port) _ hcr
      (by rw [hinv.count_eq, hlen])
    exact ⟨hfull, by simp only [add_machine, hfull]⟩
  · intro calls
    exact run_count_le MAX calls _ (by rw [emptyTable_eq]; exact Nat.zero_le _)

theorem capacity_enforced_witness :
    (do_add_machine 2 true (candidate 167772161 9300)
      (run 2 (okCalls [(167772162, 9300), (167772161, 9300)]) (emptyTable 2))).2.2 = EEXIST ∧
    do_add_machine 2 true (candidate 167772163 9300)
      (run 2 (okCalls [(167772162, 9300), (167772161, 9300)]) (emptyTable 2)) =
        (run 2 (okCalls [(167772162, 9300), (167772161, 9300)]) (emptyTable 2), none, ENOSPC) :=
  ⟨by decide,
   ((capacity_enforced 2 [(167772162, 9300), (167772161, 9300)] (by decide) (by decide)
      (by decide)).2.2.1 167772163 9300 true (by decide) (by decide)).1⟩

/-! ## Port numbers and the order of keys -/

theorem isPort.int32 {p : Int} (h : isPort p) : isInt32 p := by
  unfold isPort at h
  unfold Cluster.isInt32 INT_MIN INT_MAX
  omega

theorem wrapInt32_sub_port (a b : Int) (ha : isPort a) (hb : isPort b) :
    wrapInt32 (a - b) = a - b := by
  unfold isPort at ha hb
  unfold wrapInt32
  omega

theorem keyLt_trans {a b c : Nat × Int} (h1 : keyLt a b) (h2 : keyLt b c) : keyLt a c := by
  unfold keyLt at *
  omega

theorem keyLt_irrefl (a : Nat × Int) : ¬ keyLt a a := by
  unfold keyLt
  omega

theorem keyLt_asymm {a b : Nat × Int} (h1 : keyLt a b) : ¬ keyLt b a := by
  unfold keyLt at *
  omega

theorem keyLt_trichotomy (a b : Nat × Int) : keyLt a b ∨ a = b ∨ keyLt b a := by
  unfold keyLt
  rcases Nat.lt_trichotomy a.1 b.1 with h | h | h
  · exact Or.inl (Or.inl h)
  · rcases lt_trichotomy a.2 b.2 with h2 | h2 | h2
    · exact Or.inl (Or.inr ⟨h, h2⟩)
    · exact Or.inr (Or.inl (Prod.ext h h2))
    · exact Or.inr (Or.inr (Or.inr ⟨h.symm, h2⟩))
  · exact Or.inr (Or.inr (Or.inl h))

/-- For port numbers the sign of `compare_machine` is the lexicographic order
of the keys. -/
theorem compare_machine_sign (m1 m2 : ClusterMachine) (h1 : isPort m1.cluster_port)
    (h2 : isPort m2.cluster_port) :
    (compare_machine m1 m2 < 0 ↔ keyLt (keyOf m1) (keyOf m2)) ∧
    (compare_machine m1 m2 = 0 ↔ keyOf m1 = keyOf m2) ∧
    (0 < compare_machine m1 m2 ↔ keyLt (keyOf m2) (keyOf m1)) := by
  unfold compare_machine keyLt keyOf
  by_cases hip : m1.ip = m2.ip
  · rw [if_pos hip, wrapInt32_sub_port _ _ h1 h2]
    simp only [Prod.mk.injEq]
    omega
  · rw [if_neg hip]
    by_cases hlt : m1.ip < m2.ip
    · rw [if_pos hlt]
      simp only [Prod.mk.injEq]
      omega
    · rw [if_neg hlt]
      simp only [Prod.mk.injEq]
      omega


/-! ## Keys of the index -/

theorem indexKeys_length (t : Table) : (indexKeys t).length = t.cluster_machine_count := by
  simp [indexKeys]

theorem indexKeys_getElem (t : Table) (i : Nat) (h : i < (indexKeys t).length) :
    (indexKeys t)[i] = keyAt t i := by
  simp [indexKeys]

theorem keyAt_eq (t : Table) (i : Nat) : keyAt t i = keyOf (deref t (sortedAt t i)) := rfl

/-- With the counted part inside the index, the indexed keys are the keys of
the first `cluster_machine_count` entries. -/
theorem indexKeys_eq_map_take (t : Table)
    (h : t.cluster_machine_count ≤ t.sorted_machines.length) :
    indexKeys t =
      (t.sorted_machines.take t.cluster_machine_count).map (fun x => keyOf (deref t x)) := by
  apply List.ext_getElem
  · simp [indexKeys]; omega
  · intro i h1 h2
    have hi : i < t.cluster_machine_count := by simpa [indexKeys] using h1
    have hi2 : i < t.sorted_machines.length := by omega
    simp [indexKeys, keyAt, keyOf, sortedAt, List.getD_eq_getElem?_getD,
      List.getElem?_eq_getElem hi2]

/-- Strict ascent stated position by position. -/
theorem IndexSorted.lt {t : Table} (h : IndexSorted t) {i j : Nat} (hij : i < j)
    (hj : j < t.cluster_machine_count) : keyLt (keyAt t i) (keyAt t j) := by
  have h1 := List.pairwise_iff_getElem.mp h i j (by rw [indexKeys_length]; omega)
    (by rw [indexKeys_length]; exact hj) hij
  rwa [indexKeys_getElem, indexKeys_getElem] at h1

/-- Putting a key between the entries below it and the entries above it keeps
a strictly ascending list strictly ascending. -/
theorem pairwise_insert_middle (L : List (Nat × Int)) (pos : Nat) (k : Nat × Int)
    (hL : L.Pairwise keyLt) (hlow : ∀ a ∈ L.take pos, keyLt a k)
    (hhigh : ∀ b ∈ L.drop pos, keyLt k b) :
    (L.take pos ++ k :: L.drop pos).Pairwise keyLt := by
  rw [List.pairwise_append]
  refine ⟨hL.sublist (List.take_sublist _ _), ?_, ?_⟩
  · rw [List.pairwise_cons]
    exact ⟨hhigh, hL.sublist (List.drop_sublist _ _)⟩
  · intro a ha b hb
    rcases List.mem_cons.mp hb with hb1 | hb1
    · rw [hb1]; exact hlow a ha
    · exact keyLt_trans (hlow a ha) (hhigh b hb1)

/-- The indexed keys after an insertion: the old keys with the candidate's key
put in at the scan position. -/
theorem indexKeys_insert (MAX : Nat) (m : ClusterMachine) (t : Table)
    (hcr : (scan_loop t m t.cluster_machine_count 0 (-1)).2 ≠ 0)
    (hroom : t.cluster_machine_count < MAX) (hlen : m.hostname_len ≠ 0)
    (hidx : t.cluster_machine_count < t.sorted_machines.length)
    (hstore : t.cluster_machine_count < t.cluster_machines.length)
    (hptr : ∀ x ∈ t.sorted_machines.take t.cluster_machine_count,
      ∃ s, x = some s ∧ s < t.cluster_machine_count) :
    indexKeys (do_add_machine MAX true m t).1 =
      (indexKeys t).take (scan_loop t m t.cluster_machine_count 0 (-1)).1 ++
        keyOf m :: (indexKeys t).drop (scan_loop t m t.cluster_machine_count 0 (-1)).1 := by
  obtain ⟨_, hpos, _, _, _⟩ := scan_loop_spec t m t.cluster_machine_count 0 (-1) (by omega)
  rw [indexKeys_eq_map_take t (by omega), indexKeys_eq_map_take _ (by
    rw [do_add_machine_insert MAX m t hcr hroom hlen]
    simp [shift_loop_length]; omega)]
  rw [do_add_machine_insert MAX m t hcr hroom hlen]
  generalize (scan_loop t m t.cluster_machine_count 0 (-1)).1 = pos at hpos
  simp only
  rw [shift_set_take _ _ _ _ hpos hidx, ← List.map_take, ← List.map_drop, List.map_append,
    List.map_cons, List.take_take, Nat.min_eq_left hpos]
  congr 1
  · apply List.map_congr_left
    intro x hx
    obtain ⟨s, hs, hs2⟩ := hptr x (List.mem_of_mem_take (by
      rw [List.take_take, Nat.min_eq_left hpos]; exact hx))
    subst hs
    have : ¬ (t.cluster_machine_count = s) := by omega
    simp [deref, List.getD_eq_getElem?_getD, List.getElem?_set, this]
  · congr 1
    · simp [deref, keyOf, List.getD_eq_getElem?_getD, List.getElem?_set, hstore]
    · apply List.map_congr_left
      intro x hx
      obtain ⟨s, hs, hs2⟩ := hptr x (List.mem_of_mem_drop hx)
      subst hs
      have : ¬ (t.cluster_machine_count = s) := by omega
      simp [deref, List.getD_eq_getElem?_getD, List.getElem?_set, this]


/-! ## Tables built by calls whose allocations succeed -/

theorem Inv.ptr {MAX : Nat} {t : Table} {ks : List (Nat × Int)} (h : Inv MAX t ks) :
    ∀ x ∈ t.sorted_machines.take t.cluster_machine_count,
      ∃ s, x = some s ∧ s < t.cluster_machine_count := by
  intro x hx
  have := (h.index_perm.mem_iff).mp hx
  simp only [List.mem_map, List.mem_range] at this
  obtain ⟨s, hs, hs2⟩ := this
  exact ⟨s, hs2.symm, hs⟩

theorem Inv.keyAt_mem {MAX : Nat} {t : Table} {ks : List (Nat × Int)} (h : Inv MAX t ks)
    (i : Nat) (hi : i < t.cluster_machine_count) :
    ∃ s, sortedAt t i = some s ∧ ks[s]? = some (keyAt t i) := by
  obtain ⟨s, k, hs, _, hk, hd⟩ := h.deref_indexed i hi
  refine ⟨s, hs, ?_⟩
  rw [hk, keyAt_eq, hs, hd]
  rfl

/-- Under `Inv`, every inserted key is the key of an indexed position. -/
theorem Inv.mem_indexed {MAX : Nat} {t : Table} {ks : List (Nat × Int)} (h : Inv MAX t ks)
    (k : Nat × Int) (hk : k ∈ ks) : ∃ p, p < t.cluster_machine_count ∧ keyAt t p = k := by
  obtain ⟨s, hs⟩ := List.mem_iff_getElem?.mp hk
  have hs2 : s < ks.length := by
    rcases Nat.lt_or_ge s ks.length with h1 | h1
    · exact h1
    · rw [List.getElem?_eq_none h1] at hs; cases hs
  have hmem : some s ∈ (List.range t.cluster_machine_count).map some := by
    simp [h.count_eq, hs2]
  have hmem2 := (h.index_perm.mem_iff).mpr hmem
  obtain ⟨p, hp⟩ := List.mem_iff_getElem?.mp hmem2
  have hp2 : p < t.cluster_machine_count := by
    rcases Nat.lt_or_ge p t.cluster_machine_count with h1 | h1
    · exact h1
    · rw [List.getElem?_take] at hp
      simp [Nat.not_lt.mpr h1] at hp
  refine ⟨p, hp2, ?_⟩
  have hsp : sortedAt t p = some s := by
    rw [List.getElem?_take, if_pos hp2] at hp
    simp [sortedAt, List.getD_eq_getElem?_getD, hp]
  obtain ⟨s1, hs1, hk1⟩ := h.keyAt_mem p hp2
  rw [hsp] at hs1
  cases hs1
  rw [hs] at hk1
  exact (Option.some.inj hk1).symm

theorem Good.keyAt_port {MAX : Nat} {t : Table} {ks : List (Nat × Int)} (h : Good MAX t ks)
    (i : Nat) (hi : i < t.cluster_machine_count) : isPort (keyAt t i).2 := by
  obtain ⟨s, _, hk⟩ := h.inv.keyAt_mem i hi
  exact h.ports _ (List.getElem?_mem hk)

/-- On a good table the scan stops exactly at the position of a stored key and
reports a match there. -/
theorem Good.scan_hit {MAX : Nat} {t : Table} {ks : List (Nat × Int)} (h : Good MAX t ks)
    (m : ClusterMachine) (hm : isPort m.cluster_port) (p : Nat)
    (hp : p < t.cluster_machine_count) (hkey : keyAt t p = keyOf m) :
    scan_loop t m t.cluster_machine_count 0 (-1) = (p, 0) := by
  obtain ⟨_, h2, h3, h4, _⟩ := scan_loop_spec t m t.cluster_machine_count 0 (-1) (by omega)
  have sign := fun i (hi : i < t.cluster_machine_count) =>
    compare_machine_sign m (deref t (sortedAt t i)) hm (h.keyAt_port i hi)
  have hle : (scan_loop t m t.cluster_machine_count 0 (-1)).1 ≤ p := by
    by_contra hc
    have h5 := h3 p (Nat.zero_le _) (by omega)
    have h6 := ((sign p hp).2.2).mp h5
    rw [← keyAt_eq, hkey] at h6
    exact keyLt_irrefl _ h6
  have hlt : (scan_loop t m t.cluster_machine_count 0 (-1)).1 < t.cluster_machine_count := by
    omega
  obtain ⟨h7, h8⟩ := h4 hlt
  have hpos : (scan_loop t m t.cluster_machine_count 0 (-1)).1 = p := by
    by_contra hne
    have hlt2 : (scan_loop t m t.cluster_machine_count 0 (-1)).1 < p := by omega
    have h9 := h.sorted.lt hlt2 hp
    rw [hkey] at h9
    have h10 := ((sign _ hlt).2.2).mpr h9
    rw [← h7] at h10
    omega
  have hcr : (scan_loop t m t.cluster_machine_count 0 (-1)).2 = 0 := by
    rw [h7, hpos]
    exact ((sign p hp).2.1).mpr (by rw [← keyAt_eq, hkey])
  exact Prod.ext hpos hcr

/-- On a good table, `do_add_machine` for a stored key returns its slot with
`EEXIST` and changes nothing, whatever the allocation would do. -/
theorem Good.add_existing {MAX : Nat} {t : Table} {ks : List (Nat × Int)} (h : Good MAX t ks)
    (ip : Nat) (port : Int) (s : Nat) (hs : ks[s]? = some (ip, port)) (b : Bool) :
    do_add_machine MAX b (candidate ip port) t = (t, some s, EEXIST) := by
  have hk : (ip, port) ∈ ks := List.getElem?_mem hs
  obtain ⟨p, hp, hkey⟩ := h.inv.mem_indexed _ hk
  have hscan := h.scan_hit (candidate ip port) (h.ports _ hk) p hp hkey
  obtain ⟨s1, hs1, hk1⟩ := h.inv.keyAt_mem p hp
  rw [hkey] at hk1
  have hs2 : s < ks.length := by
    rcases Nat.lt_or_ge s ks.length with h1 | h1
    · exact h1
    · rw [List.getElem?_eq_none h1] at hs; cases hs
  have hs3 : s1 < ks.length := by
    rcases Nat.lt_or_ge s1 ks.length with h1 | h1
    · exact h1
    · rw [List.getElem?_eq_none h1] at hk1; cases hk1
  have heq : s1 = s := by
    rw [List.getElem?_eq_getElem hs2] at hs
    rw [List.getElem?_eq_getElem hs3] at hk1
    exact (@List.Nodup.getElem_inj_iff _ ks h.nodup s1 hs3 s hs2).mp
      ((Option.some.inj hk1).trans (Option.some.inj hs).symm)
  simp [do_add_machine, hscan, hs1, heq]


/-- On a good table, inserting a new key with a port number, room left and a
successful allocation gives a good table again. -/
theorem Good.insert_sorted {MAX : Nat} {t : Table} {ks : List (Nat × Int)} (h : Good MAX t ks)
    (ip : Nat) (port : Int) (hport : isPort port) (hnew : (ip, port) ∉ ks)
    (hroom : ks.length < MAX) :
    Good MAX (do_add_machine MAX true (candidate ip port) t).1 (ks ++ [(ip, port)]) := by
  have hports : ∀ k ∈ ks, isInt32 k.2 := fun k hk => (h.ports k hk).int32
  have hinv := (h.inv.insert_new ip port hport.int32 hports hnew hroom).2
  have hcr : (scan_loop t (candidate ip port) t.cluster_machine_count 0 (-1)).2 ≠ 0 :=
    fun hc => hnew (h.inv.scan_match_mem ip port hport.int32 hports hc)
  have hce := h.inv.count_eq
  refine ⟨hinv, ?_, ?_, ?_⟩
  · intro k hk
    rcases List.mem_append.mp hk with h1 | h1
    · exact h.ports k h1
    · rw [List.mem_singleton.mp h1]; exact hport
  · rw [List.nodup_append]
    refine ⟨h.nodup, List.nodup_singleton _, ?_⟩
    intro a ha hb
    rw [List.mem_singleton.mp hb] at ha
    exact hnew ha
  · unfold IndexSorted
    rw [indexKeys_insert MAX (candidate ip port) t hcr (by omega)
      (candidate_hostname_len ip port) (by rw [h.inv.index_len]; omega)
      (by rw [h.inv.store_len]; omega) h.inv.ptr]
    obtain ⟨_, h2, h3, h4, _⟩ :=
      scan_loop_spec t (candidate ip port) t.cluster_machine_count 0 (-1) (by omega)
    have sign := fun i (hi : i < t.cluster_machine_count) =>
      compare_machine_sign (candidate ip port) (deref t (sortedAt t i)) hport
        (h.keyAt_port i hi)
    apply pairwise_insert_middle _ _ _ h.sorted
    · intro a ha
      obtain ⟨i, hi, hia⟩ := List.mem_take_iff_getElem.mp ha
      rw [indexKeys_length] at hi
      rw [indexKeys_getElem] at hia
      rw [← hia]
      exact ((sign i (by omega)).2.2).mp (h3 i (Nat.zero_le _) (by omega))
    · intro b hb
      obtain ⟨i, hi, hib⟩ := List.mem_drop_iff_getElem.mp hb
      rw [indexKeys_length] at hi
      rw [indexKeys_getElem] at hib
      rw [← hib]
      have hlt : (scan_loop t (candidate ip port) t.cluster_machine_count 0 (-1)).1 <
          t.cluster_machine_count := by omega
      obtain ⟨h7, h8⟩ := h4 hlt
      have hneg : compare_machine (candidate ip port)
          (deref t (sortedAt t
            (scan_loop t (candidate ip port) t.cluster_machine_count 0 (-1)).1)) < 0 := by
        rw [← h7]
        exact lt_of_le_of_ne h8 hcr
      have hfirst := ((sign _ hlt).1).mp hneg
      rw [← keyAt_eq] at hfirst
      rcases Nat.eq_zero_or_pos i with hi0 | hi0
      · subst hi0; exact hfirst
      · exact keyLt_trans hfirst (h.sorted.lt (by omega) (by omega))

theorem good_emptyTable (MAX : Nat) : Good MAX (emptyTable MAX) [] := by
  refine ⟨inv_emptyTable MAX, ?_, List.nodup_nil, ?_⟩
  · intro k hk; cases hk
  · rw [emptyTable_eq]
    simp [IndexSorted, indexKeys]

/-- One call with a port number and a successful allocation keeps a good
table good. -/
theorem Good.step_ok {MAX : Nat} {t : Table} {ks : List (Nat × Int)} (h : Good MAX t ks)
    (c : Call) (hok : c.malloc_ok = true) (hport : isPort c.port) :
    Good MAX (step MAX t c)
      (if (c.ip, c.port) ∈ ks ∨ MAX ≤ ks.length then ks else ks ++ [(c.ip, c.port)]) := by
  unfold Cluster.step add_machine
  simp only
  by_cases hmem : (c.ip, c.port) ∈ ks
  · obtain ⟨s, hs⟩ := List.mem_iff_getElem?.mp hmem
    rw [if_pos (Or.inl hmem), h.add_existing c.ip c.port s hs]
    exact h
  · by_cases hfull : MAX ≤ ks.length
    · have hports : ∀ k ∈ ks, isInt32 k.2 := fun k hk => (h.ports k hk).int32
      have hcr : (scan_loop t (candidate c.ip c.port) t.cluster_machine_count 0 (-1)).2 ≠ 0 :=
        fun hc => hmem (h.inv.scan_match_mem c.ip c.port hport.int32 hports hc)
      rw [if_pos (Or.inr hfull), do_add_machine_full MAX _ _ t hcr
        (by rw [h.inv.count_eq]; exact hfull)]
      exact h
    · have hcond : ¬ ((c.ip, c.port) ∈ ks ∨ MAX ≤ ks.length) := by
        intro hc; rcases hc with h1 | h1
        · exact hmem h1
        · exact hfull h1
      rw [if_neg hcond, hok]
      exact h.insert_sorted c.ip c.port hport hmem (by omega)

theorem good_run (MAX : Nat) (calls : List Call) :
    ∀ (t : Table) (ks : List (Nat × Int)), allOk calls → Good MAX t ks →
      Good MAX (run MAX calls t) (insertedKeys MAX calls ks) := by
  induction calls with
  | nil => intro t ks _ h; exact h
  | cons c cs ih =>
    intro t ks hok h
    have hc := hok c (List.mem_cons_self _ _)
    have hcs : allOk cs := fun c1 hc1 => hok c1 (List.mem_cons_of_mem _ hc1)
    have hstep := h.step_ok c hc.1 hc.2
    show Good MAX (run MAX cs (Cluster.step MAX t c)) (insertedKeys MAX (c :: cs) ks)
    unfold insertedKeys
    split
    · rename_i hcond
      rw [if_pos hcond] at hstep
      exact ih _ _ hcs hstep
    · rename_i hcond
      rw [if_neg hcond] at hstep
      exact ih _ _ hcs hstep

/-- With every allocation succeeding and every port in 0..65535, the first
`cluster_machine_count` index entries are strictly ascending by key after any
sequence of `add_machine` calls on the empty table. -/
theorem sorted_when_allocations_succeed (MAX : Nat) (calls : List Call) (hok : allOk calls) :
    IndexSorted (run MAX calls (emptyTable MAX)) :=
  (good_run MAX calls _ _ hok (good_emptyTable MAX)).sorted


/-! ## get_machine on good tables -/

/-- Whatever `bsearch` returns is a position of the searched range whose key
is the searched key. -/
theorem bsearch_loop_sound {MAX : Nat} {t : Table} {ks : List (Nat × Int)} (h : Good MAX t ks)
    (key : ClusterMachine) (hkey : isPort key.cluster_port) :
    ∀ (fuel l u idx : Nat), u ≤ t.cluster_machine_count →
      bsearch_loop t key fuel l u = some idx →
      l ≤ idx ∧ idx < u ∧ keyAt t idx = keyOf key
  | 0, l, u, idx => by
    intro _ hres
    simp [bsearch_loop] at hres
  | fuel + 1, l, u, idx => by
    intro hu hres
    unfold bsearch_loop at hres
    by_cases hlu : l < u
    · rw [if_pos hlu] at hres
      simp only at hres
      have hmid : (l + u) / 2 < u := by omega
      have hmid2 : l ≤ (l + u) / 2 := by omega
      have sign := compare_machine_sign key (deref t (sortedAt t ((l + u) / 2))) hkey
        (h.keyAt_port _ (by omega))
      by_cases hc1 : compare_machine key (deref t (sortedAt t ((l + u) / 2))) < 0
      · rw [if_pos hc1] at hres
        obtain ⟨a, b, c⟩ := bsearch_loop_sound h key hkey fuel l ((l + u) / 2) idx (by omega) hres
        exact ⟨a, by omega, c⟩
      · rw [if_neg hc1] at hres
        by_cases hc2 : compare_machine key (deref t (sortedAt t ((l + u) / 2))) > 0
        · rw [if_pos hc2] at hres
          obtain ⟨a, b, c⟩ :=
            bsearch_loop_sound h key hkey fuel ((l + u) / 2 + 1) u idx hu hres
          exact ⟨by omega, b, c⟩
        · rw [if_neg hc2] at hres
          cases hres
          have hz : compare_machine key (deref t (sortedAt t ((l + u) / 2))) = 0 := by omega
          exact ⟨hmid2, hmid, (sign.2.1.mp hz).symm⟩
    · rw [if_neg hlu] at hres
      cases hres

/-- On a good table `bsearch` finds the position of a key that lies in the
searched range. -/
theorem bsearch_loop_complete {MAX : Nat} {t : Table} {ks : List (Nat × Int)}
    (h : Good MAX t ks) (key : ClusterMachine) (hkey : isPort key.cluster_port) (p : Nat)
    (hp : keyAt t p = keyOf key) :
    ∀ (fuel l u : Nat), u ≤ t.cluster_machine_count → u - l ≤ fuel → l ≤ p → p < u →
      bsearch_loop t key fuel l u = some p
  | 0, l, u => by
    intro _ hf hl hu
    omega
  | fuel + 1, l, u => by
    intro hu hf hl hpu
    unfold bsearch_loop
    have hlu : l < u := by omega
    rw [if_pos hlu]
    simp only
    have hmid : (l + u) / 2 < u := by omega
    have hmid2 : l ≤ (l + u) / 2 := by omega
    have sign := compare_machine_sign key (deref t (sortedAt t ((l + u) / 2))) hkey
      (h.keyAt_port _ (by omega))
    rw [← keyAt_eq, ← hp] at sign
    have hpc : p < t.cluster_machine_count := by omega
    by_cases hc1 : compare_machine key (deref t (sortedAt t ((l + u) / 2))) < 0
    · rw [if_pos hc1]
      have hlt := sign.1.mp hc1
      have hpm : p < (l + u) / 2 := by
        by_contra hn
        rcases Nat.eq_or_lt_of_le (Nat.le_of_not_lt hn) with h1 | h1
        · rw [h1] at hlt; exact keyLt_irrefl _ hlt
        · exact keyLt_asymm hlt (h.sorted.lt h1 hpc)
      exact bsearch_loop_complete h key hkey p hp fuel l ((l + u) / 2) (by omega) (by omega)
        hl hpm
    · rw [if_neg hc1]
      by_cases hc2 : compare_machine key (deref t (sortedAt t ((l + u) / 2))) > 0
      · rw [if_pos hc2]
        have hgt := sign.2.2.mp hc2
        have hpm : (l + u) / 2 < p := by
          by_contra hn
          rcases Nat.eq_or_lt_of_le (Nat.le_of_not_lt hn) with h1 | h1
          · rw [h1] at hgt; exact keyLt_irrefl _ hgt
          · exact keyLt_asymm hgt (h.sorted.lt h1 (by omega))
        exact bsearch_loop_complete h key hkey p hp fuel ((l + u) / 2 + 1) u hu (by omega)
          (by omega) hpu
      · rw [if_neg hc2]
        have hz : compare_machine key (deref t (sortedAt t ((l + u) / 2))) = 0 := by omega
        have heq := sign.2.1.mp hz
        have hpm : (l + u) / 2 = p := by
          by_contra hn
          rcases Nat.lt_or_gt_of_ne hn with h1 | h1
          · have := h.sorted.lt h1 hpc
            rw [← heq] at this
            exact keyLt_irrefl _ this
          · have := h.sorted.lt h1 (by omega)
            rw [← heq] at this
            exact keyLt_irrefl _ this
        rw [hpm]

/-- On a good table `get_machine` returns the slot of a stored key, whose
record is the one written at insertion, and `NULL` for every other key with a
port number. -/
theorem Good.lookup {MAX : Nat} {t : Table} {ks : List (Nat × Int)} (h : Good MAX t ks)
    (ip : Nat) (port : Int) (hport : isPort port) :
    (∀ s, ks[s]? = some (ip, port) →
      get_machine ip port t = some s ∧ deref t (some s) = fresh ip port) ∧
    ((ip, port) ∉ ks → get_machine ip port t = none) := by
  have hk0 : isPort ({ ClusterMachine.zero with ip := ip, cluster_port := port } :
      ClusterMachine).cluster_port := hport
  constructor
  · intro s hs
    have hk : (ip, port) ∈ ks := List.getElem?_mem hs
    obtain ⟨p, hp, hkey⟩ := h.inv.mem_indexed _ hk
    have hb := bsearch_loop_complete h
      { ClusterMachine.zero with ip := ip, cluster_port := port } hk0 p hkey
      t.cluster_machine_count 0 t.cluster_machine_count (le_refl _) (by omega)
      (Nat.zero_le _) hp
    obtain ⟨s1, k1, hs1, hs1l, hk1, hd1⟩ := h.inv.deref_indexed p hp
    have hk1e : k1 = (ip, port) := by
      have : keyAt t p = k1 := by rw [keyAt_eq, hs1, hd1]; rfl
      rw [← this, hkey]
    subst hk1e
    have hs2 : s < ks.length := by
      rcases Nat.lt_or_ge s ks.length with h1 | h1
      · exact h1
      · rw [List.getElem?_eq_none h1] at hs; cases hs
    have heq : s1 = s := by
      rw [List.getElem?_eq_getElem hs2] at hs
      rw [List.getElem?_eq_getElem hs1l] at hk1
      exact (@List.Nodup.getElem_inj_iff _ ks h.nodup s1 hs1l s hs2).mp
        ((Option.some.inj hk1).trans (Option.some.inj hs).symm)
    subst heq
    refine ⟨?_, hd1⟩
    unfold Cluster.get_machine
    simp only [hb, hs1]
  · intro hnot
    unfold Cluster.get_machine
    simp only
    cases hb : bsearch_loop t { ClusterMachine.zero with ip := ip, cluster_port := port }
        t.cluster_machine_count 0 t.cluster_machine_count with
    | none => rfl
    | some idx =>
      exfalso
      obtain ⟨_, hi, hkey⟩ := bsearch_loop_sound h _ hk0 _ _ _ _ (le_refl _) hb
      obtain ⟨s, _, hk⟩ := h.inv.keyAt_mem idx hi
      rw [hkey] at hk
      exact hnot (List.getElem?_mem hk)

/-- With every allocation succeeding and every port in 0..65535, a call for a
key that is stored returns the slot of that key with `EEXIST` and leaves the
table as it was. -/
theorem existing_key_when_allocations_succeed (MAX : Nat) (calls : List Call)
    (hok : allOk calls) (ip : Nat) (port : Int) (s : Nat) (b : Bool)
    (hs : (insertedKeys MAX calls [])[s]? = some (ip, port)) :
    do_add_machine MAX b (candidate ip port) (run MAX calls (emptyTable MAX)) =
      (run MAX calls (emptyTable MAX), some s, EEXIST) :=
  (good_run MAX calls _ _ hok (good_emptyTable MAX)).add_existing ip port s hs b

/-- With every allocation succeeding and every port in 0..65535,
`get_machine` returns the slot of a stored key, holding the record written at
insertion, and `NULL` for a key that is not stored. -/
theorem lookup_when_allocations_succeed (MAX : Nat) (calls : List Call) (hok : allOk calls)
    (ip : Nat) (port : Int) (hport : isPort port) :
    (∀ s, (insertedKeys MAX calls [])[s]? = some (ip, port) →
      get_machine ip port (run MAX calls (emptyTable MAX)) = some s ∧
      deref (run MAX calls (emptyTable MAX)) (some s) = fresh ip port) ∧
    ((ip, port) ∉ insertedKeys MAX calls [] →
      get_machine ip port (run MAX calls (emptyTable MAX)) = none) :=
  (good_run MAX calls _ _ hok (good_emptyTable MAX)).lookup ip port hport

/-! ## The allocation-failure path of do_add_machine (C1, C2, C4, C10) -/

/-- C1 fails on the code: after `add_machine(2, 80)`, an `add_machine(1, 80)`
that returns through the `ENOMEM` branch, and `add_machine(3, 80)`, the count
is 2 and both indexed entries point to slot 1, so the two indexed keys are
equal and the index is not strictly ascending. -/
theorem sort_invariant_broken :
    (run 4 [⟨3, 80, true⟩] afterFailedInsert).cluster_machine_count = 2 ∧
    (run 4 [⟨3, 80, true⟩] afterFailedInsert).sorted_machines.take 2 = [some 1, some 1] ∧
    indexKeys (run 4 [⟨3, 80, true⟩] afterFailedInsert) = [(3, 80), (3, 80)] ∧
    ¬ IndexSorted (run 4 [⟨3, 80, true⟩] afterFailedInsert) := by
  decide

/-- C2 fails on the code: `add_machine(2, 80)` on the empty table returns slot
0; after an `add_machine(1, 80)` that returns through the `ENOMEM` branch, a
second `add_machine(2, 80)` does not report `EEXIST` with slot 0 but stores the
key again in slot 1 with result 0 and raises the count from 1 to 2. -/
theorem repeat_key_inserted_twice :
    (add_machine 4 true 2 80 (emptyTable 4)).2 = some 0 ∧
    afterFailedInsert.cluster_machine_count = 1 ∧
    (do_add_machine 4 true (candidate 2 80) afterFailedInsert).2 = (some 1, 0) ∧
    (do_add_machine 4 true (candidate 2 80) afterFailedInsert).1.cluster_machine_count = 2 ∧
    (deref (do_add_machine 4 true (candidate 2 80) afterFailedInsert).1 (some 0)).ip = 2 ∧
    (deref (do_add_machine 4 true (candidate 2 80) afterFailedInsert).1 (some 1)).ip = 2 := by
  decide

/-- C4 fails on the code: `add_machine(9, 80)` succeeded with slot 1, yet after
an `add_machine(7, 80)` that returns through the `ENOMEM` branch
`get_machine(9, 80)` is `NULL`, while `get_machine(7, 80)`, a key that was
never inserted successfully, returns slot 2. -/
theorem lookup_wrong_after_enomem :
    (add_machine 4 true 9 80 (run 4 [⟨5, 80, true⟩] (emptyTable 4))).2 = some 1 ∧
    (do_add_machine 4 false (candidate 7 80)
      (run 4 [⟨5, 80, true⟩, ⟨9, 80, true⟩] (emptyTable 4))).2 = (some 2, ENOMEM) ∧
    get_machine 9 80 (run 4 [⟨5, 80, true⟩, ⟨9, 80, true⟩] (emptyTable 4)) = some 1 ∧
    get_machine 9 80 afterFailedMiddle = none ∧
    get_machine 7 80 afterFailedMiddle = some 2 := by
  decide

/-- C10 fails on the code: with machines (1, 80) and (3, 80) stored, an
`add_machine(2, 80)` whose hostname allocation fails returns slot 2 (a record
with `hostname` still `NULL`) with `ENOMEM`, keeps the count at 2, but has
already shifted the index and written the slot: the first two index entries
change from slots 0, 1 to slots 0, 2, so `get_machine(3, 80)` no longer finds
the stored machine and `get_machine(2, 80)` finds the failed one. -/
theorem alloc_failure_not_atomic :
    (do_add_machine 4 false (candidate 2 80) twoMachines).2 = (some 2, ENOMEM) ∧
    (add_machine 4 false 2 80 twoMachines).2 = some 2 ∧
    (deref (add_machine 4 false 2 80 twoMachines).1 (some 2)).hostname = none ∧
    (add_machine 4 false 2 80 twoMachines).1.cluster_machine_count = 2 ∧
    twoMachines.cluster_machine_count = 2 ∧
    twoMachines.sorted_machines.take 2 = [some 0, some 1] ∧
    (add_machine 4 false 2 80 twoMachines).1.sorted_machines.take 2 = [some 0, some 2] ∧
    (add_machine 4 false 2 80 twoMachines).1.cluster_machines ≠ twoMachines.cluster_machines ∧
    get_machine 3 80 twoMachines = some 1 ∧
    get_machine 3 80 (add_machine 4 false 2 80 twoMachines).1 = none ∧
    get_machine 2 80 twoMachines = none ∧
    get_machine 2 80 (add_machine 4 false 2 80 twoMachines).1 = some 2 := by
  decide

/-! ## Reading and writing through machine pointers -/

theorem deref_store_same (t : Table) (h : Nat) (m : ClusterMachine)
    (hh : h < t.cluster_machines.length) : deref (store t h m) (some h) = m := by
  simp [deref, store, List.getD_eq_getElem?_getD, List.getElem?_set, hh]

theorem deref_store_other (t : Table) (h k : Nat) (m : ClusterMachine) (hk : k ≠ h) :
    deref (store t h m) (some k) = deref t (some k) := by
  simp [deref, store, List.getD_eq_getElem?_getD, List.getElem?_set, Ne.symm hk]

/-! ## Connection accounting and liveness (C5 - C9) -/

/-- C5, as stated, fails: on a freshly inserted machine a successful
`machine_add_connection` returns 0 while the new count is 1, and on a machine
with two connections a successful `machine_remove_connection` returns 0 while
the new count is 1. -/
theorem returned_count_counterexample :
    (machine_add_connection 0 ⟨0, 'C'⟩ oneMachine).2.2 = 0 ∧
    (deref (machine_add_connection 0 ⟨0, 'C'⟩ oneMachine).1 (some 0)).now_connections = 1 ∧
    (machine_add_connection 0 ⟨0, 'C'⟩ oneMachine).2.2 ≠
      (deref oneMachine (some 0)).now_connections + 1 ∧
    (machine_remove_connection 0 ⟨0, 'C'⟩
        (machine_add_connection 0 ⟨0, 'C'⟩ oneMachineUp).1).2.2 = 0 ∧
    (deref (machine_remove_connection 0 ⟨0, 'C'⟩
        (machine_add_connection 0 ⟨0, 'C'⟩ oneMachineUp).1).1 (some 0)).now_connections = 1 ∧
    (machine_remove_connection 0 ⟨0, 'C'⟩
        (machine_add_connection 0 ⟨0, 'C'⟩ oneMachineUp).1).2.2 ≠
      (deref (machine_add_connection 0 ⟨0, 'C'⟩ oneMachineUp).1 (some 0)).now_connections - 1 := by
  decide

/-- An `int` value is not changed by wrapping. -/
theorem wrapInt32_eq_self (x : Int) (h : isInt32 x) : wrapInt32 x = x := by
  unfold isInt32 INT_MIN INT_MAX at h
  unfold wrapInt32
  omega

/-- C5 (amended): when the collaborator call succeeds (returns 0),
`machine_add_connection` returns the success code 0 and leaves the machine's
`now_connections` at the `int` value of the old count plus one, which is
exactly old + 1 while the old count is below `INT_MAX`; and
`machine_remove_connection` returns 0 and leaves it at the `int` value of the
old count minus one, which is exactly old - 1 while the old count is above
`INT_MIN`. -/
theorem returned_code_and_count (t : Table) (ctx : SocketContext)
    (h : ctx.machine < t.cluster_machines.length) :
    ((machine_add_connection 0 ctx t).2.2 = 0 ∧
      (deref (machine_add_connection 0 ctx t).1 (some ctx.machine)).now_connections =
        wrapInt32 ((deref t (some ctx.machine)).now_connections + 1) ∧
      (isInt32 (deref t (some ctx.machine)).now_connections →
        (deref t (some ctx.machine)).now_connections < INT_MAX →
        (deref (machine_add_connection 0 ctx t).1 (some ctx.machine)).now_connections =
          (deref t (some ctx.machine)).now_connections + 1)) ∧
    ((machine_remove_connection 0 ctx t).2.2 = 0 ∧
      (deref (machine_remove_connection 0 ctx t).1 (some ctx.machine)).now_connections =
        wrapInt32 ((deref t (some ctx.machine)).now_connections - 1) ∧
      (isInt32 (deref t (some ctx.machine)).now_connections →
        INT_MIN < (deref t (some ctx.machine)).now_connections →
        (deref (machine_remove_connection 0 ctx t).1 (some ctx.machine)).now_connections =
          (deref t (some ctx.machine)).now_connections - 1)) := by
  have hadd : (deref (machine_add_connection 0 ctx t).1 (some ctx.machine)).now_connections =
      wrapInt32 ((deref t (some ctx.machine)).now_connections + 1) := by
    simp [machine_add_connection, deref_store_same _ _ _ h]
  have hrem : (deref (machine_remove_connection 0 ctx t).1 (some ctx.machine)).now_connections =
      wrapInt32 ((deref t (some ctx.machine)).now_connections - 1) := by
    unfold machine_remove_connection
    simp only [ne_eq, not_true_eq_false, if_false]
    split <;> simp [deref_store_same _ _ _ h]
  refine ⟨⟨?_, hadd, ?_⟩, ?_, hrem, ?_⟩
  · simp [machine_add_connection]
  · intro h1 h2
    rw [hadd]
    apply wrapInt32_eq_self
    unfold isInt32 INT_MIN INT_MAX at *
    omega
  · unfold machine_remove_connection
    simp only [ne_eq, not_true_eq_false, if_false]
    split <;> rfl
  · intro h1 h2
    rw [hrem]
    apply wrapInt32_eq_self
    unfold isInt32 INT_MIN INT_MAX at *
    omega

theorem returned_code_and_count_witness :
    (machine_add_connection 0 ⟨0, 'C'⟩ oneMachine).2.2 = 0 ∧
    (deref (machine_add_connection 0 ⟨0, 'C'⟩ oneMachine).1 (some 0)).now_connections =
      (deref oneMachine (some 0)).now_connections + 1 ∧
    (deref (machine_remove_connection 0 ⟨0, 'C'⟩ oneMachineUp).1 (some 0)).now_connections =
      (deref oneMachineUp (some 0)).now_connections - 1 :=
  ⟨(returned_code_and_count oneMachine ⟨0, 'C'⟩ (by decide)).1.1,
   (returned_code_and_count oneMachine ⟨0, 'C'⟩ (by decide)).1.2.2 (by decide) (by decide),
   (returned_code_and_count oneMachineUp ⟨0, 'C'⟩ (by decide)).2.2.2 (by decide) (by decide)⟩

/-- C7: `machine_up_notify` on `NULL` returns `ENOENT` and changes nothing; on
a dead machine it clears `dead`, notifies exactly once (that machine) and
returns 0; on an alive machine it changes nothing and notifies nothing, so a
second call after any call is a no-op; in every case each machine's
`now_connections` is what it was. -/
theorem notify_up_effect (t : Table) :
    machine_up_notify none t = (t, [], ENOENT) ∧
    ∀ h : Nat, h < t.cluster_machines.length →
      ((deref t (some h)).dead = true →
        (deref (machine_up_notify (some h) t).1 (some h)).dead = false ∧
        (machine_up_notify (some h) t).2 = ([h], 0)) ∧
      ((deref t (some h)).dead = false → machine_up_notify (some h) t = (t, [], 0)) ∧
      machine_up_notify (some h) (machine_up_notify (some h) t).1 =
        ((machine_up_notify (some h) t).1, [], 0) ∧
      ∀ k : Nat, (deref (machine_up_notify (some h) t).1 (some k)).now_connections =
        (deref t (some k)).now_connections := by
  refine ⟨rfl, ?_⟩
  intro h hh
  have hlen : ∀ m, h < (store t h m).cluster_machines.length := by
    intro m; simpa [store] using hh
  by_cases hd : (deref t (some h)).dead = true
  · have hup : machine_up_notify (some h) t =
        (store t h { deref t (some h) with dead := false }, [h], 0) := by
      simp [machine_up_notify, hd]
    rw [hup]
    refine ⟨fun _ => ⟨by simp [deref_store_same _ _ _ hh], rfl⟩, ?_, ?_, ?_⟩
    · intro hf; rw [hf] at hd; cases hd
    · simp [machine_up_notify, deref_store_same _ _ _ hh]
    · intro k
      by_cases hk : k = h
      · subst hk; simp [deref_store_same _ _ _ hh]
      · simp [deref_store_other _ _ _ _ hk]
  · have hup : machine_up_notify (some h) t = (t, [], 0) := by
      simp [machine_up_notify, hd]
    rw [hup]
    refine ⟨fun hf => absurd hf hd, fun _ => rfl, hup, fun _ => rfl⟩

theorem notify_up_effect_witness :
    (deref (machine_up_notify (some 0) oneMachine).1 (some 0)).dead = false ∧
    (machine_up_notify (some 0) oneMachine).2 = ([0], 0) :=
  ((notify_up_effect oneMachine).2 0 (by decide)).1 (by decide)

/-- C9: when the collaborator call returns a non-zero error,
`machine_add_connection` and `machine_remove_connection` return exactly that
error, leave the whole table (so every machine's `now_connections` and `dead`)
as it was and notify nothing. -/
theorem collaborator_failure_atomic (t : Table) (ctx : SocketContext) (err : Int)
    (herr : err ≠ 0) :
    machine_add_connection err ctx t = (t, [], err) ∧
    machine_remove_connection err ctx t = (t, [], err) := by
  simp [machine_add_connection, machine_remove_connection, herr]

theorem collaborator_failure_atomic_witness :
    machine_add_connection 5 ⟨0, 'C'⟩ oneMachineUp = (oneMachineUp, [], 5) ∧
    machine_remove_connection 5 ⟨0, 'C'⟩ oneMachineUp = (oneMachineUp, [], 5) :=
  collaborator_failure_atomic oneMachineUp ⟨0, 'C'⟩ 5 (by decide)

/-! ## The store under add_machine (C13, C18) -/

/-- Whatever the outcome, `do_add_machine` leaves the slots below the old
count as they were. -/
theorem do_add_machine_old_slots (MAX : Nat) (b : Bool) (m : ClusterMachine) (t : Table)
    (s : Nat) (hs : s < t.cluster_machine_count) :
    (do_add_machine MAX b m t).1.cluster_machines[s]? = t.cluster_machines[s]? := by
  have hne : ¬ (t.cluster_machine_count = s) := by omega
  unfold do_add_machine
  simp only
  split
  · rfl
  · split
    · rfl
    · split
      · simp [List.getElem?_set, hne]
      · split
        · simp [List.getElem?_set, hne]
        · simp [List.getElem?_set, hne]

/-- C18: every `add_machine` call, whatever its outcome (inserted, `EEXIST`,
`ENOSPC` or `ENOMEM`) and on any table, leaves each record stored in a slot
below the old `cluster_machine_count` in the same slot with the same fields,
so a pointer to it still denotes the same machine. -/
theorem append_only_store (MAX : Nat) (b : Bool) (ip : Nat) (port : Int) (t : Table) (s : Nat)
    (hs : s < t.cluster_machine_count) :
    (add_machine MAX b ip port t).1.cluster_machines[s]? = t.cluster_machines[s]? ∧
    deref (add_machine MAX b ip port t).1 (some s) = deref t (some s) := by
  have h := do_add_machine_old_slots MAX b (candidate ip port) t s hs
  refine ⟨h, ?_⟩
  simp only [deref, add_machine, List.getD_eq_getElem?_getD, h]

theorem append_only_store_witness :
    deref (add_machine 4 false 2 80 twoMachines).1 (some 1) = deref twoMachines (some 1) ∧
    deref (add_machine 4 true 2 80 twoMachines).1 (some 0) = deref twoMachines (some 0) :=
  ⟨(append_only_store 4 false 2 80 twoMachines 1 (by decide)).2,
   (append_only_store 4 true 2 80 twoMachines 0 (by decide)).2⟩

/-- Store length and connection counts are untouched by `do_add_machine`:
the store keeps its length, and if every record had `now_connections = 0`
before, every record has it afterwards. -/
theorem do_add_machine_counts_zero (MAX : Nat) (b : Bool) (m : ClusterMachine) (t : Table)
    (hz : ∀ x ∈ t.cluster_machines, x.now_connections = 0) :
    (do_add_machine MAX b m t).1.cluster_machines.length = t.cluster_machines.length ∧
    ∀ x ∈ (do_add_machine MAX b m t).1.cluster_machines, x.now_connections = 0 := by
  have hold : (t.cluster_machines.getD t.cluster_machine_count
      ClusterMachine.zero).now_connections = 0 := by
    rw [List.getD_eq_getElem?_getD]
    cases hg : t.cluster_machines[t.cluster_machine_count]? with
    | none => rfl
    | some x => exact hz x (List.getElem?_mem hg)
  unfold do_add_machine
  simp only
  split
  · exact ⟨rfl, hz⟩
  · split
    · exact ⟨rfl, hz⟩
    · split
      · refine ⟨by simp, ?_⟩
        intro x hx
        rcases List.mem_or_eq_of_mem_set hx with h1 | h1
        · exact hz x h1
        · rw [h1]; exact hold
      · split
        · refine ⟨by simp, ?_⟩
          intro x hx
          rcases List.mem_or_eq_of_mem_set hx with h1 | h1
          · exact hz x h1
          · rw [h1]; exact hold
        · refine ⟨by simp, ?_⟩
          intro x hx
          rcases List.mem_or_eq_of_mem_set hx with h1 | h1
          · exact hz x h1
          · rw [h1]; exact hold

/-- In every table reached from the empty one by `add_machine` calls, whatever
their outcomes, the store has `MAX` slots and every slot has
`now_connections = 0`. -/
theorem run_counts_zero (MAX : Nat) (calls : List Call) :
    ∀ t : Table, t.cluster_machines.length = MAX →
      (∀ x ∈ t.cluster_machines, x.now_connections = 0) →
      (run MAX calls t).cluster_machines.length = MAX ∧
      ∀ x ∈ (run MAX calls t).cluster_machines, x.now_connections = 0 := by
  induction calls with
  | nil => intro t h1 h2; exact ⟨h1, h2⟩
  | cons c cs ih =>
    intro t h1 h2
    have h := do_add_machine_counts_zero MAX c.malloc_ok (candidate c.ip c.port) t h2
    exact ih _ (h.1.trans h1) h.2

/-- A result of 0 from `do_add_machine` on an `add_machine` candidate means
the insertion path was taken with a successful allocation. -/
theorem do_add_machine_success (MAX : Nat) (b : Bool) (ip : Nat) (port : Int) (t : Table)
    (h : (do_add_machine MAX b (candidate ip port) t).2.2 = 0) :
    (scan_loop t (candidate ip port) t.cluster_machine_count 0 (-1)).2 ≠ 0 ∧
    t.cluster_machine_count < MAX ∧ b = true := by
  have hlen := candidate_hostname_len ip port
  by_cases hcr : (scan_loop t (candidate ip port) t.cluster_machine_count 0 (-1)).2 = 0
  · simp [do_add_machine, hcr, EEXIST] at h
  · by_cases hroom : t.cluster_machine_count ≥ MAX
    · simp [do_add_machine, hcr, hroom, ENOSPC] at h
    · cases b with
      | true => exact ⟨hcr, by omega, rfl⟩
      | false => simp [do_add_machine, hcr, hroom, hlen, ENOMEM] at h

/-- New record when only `add_machine` has been called: on every table reached
from the initialized empty table by `add_machine` calls alone (whatever their
outcomes), an `add_machine(ip, port)` that succeeds (result 0) returns the slot numbered by the old
`cluster_machine_count`, leaves in that slot the record with the given `ip`
and `cluster_port`, `hostname` the dotted-decimal text of `ip`, `hostname_len`
its length, `dead = true` and `now_connections = 0`, and raises
`cluster_machine_count` by exactly one. -/
theorem new_record_postcondition (MAX : Nat) (calls : List Call) (b : Bool) (ip : Nat)
    (port : Int)
    (hsucc : (do_add_machine MAX b (candidate ip port)
      (run MAX calls (emptyTable MAX))).2.2 = 0) :
    (add_machine MAX b ip port (run MAX calls (emptyTable MAX))).2 =
      some (run MAX calls (emptyTable MAX)).cluster_machine_count ∧
    (add_machine MAX b ip port (run MAX calls (emptyTable MAX))).1.cluster_machines[
        (run MAX calls (emptyTable MAX)).cluster_machine_count]? =
      some { dead := true, hostname := some (inet_ntoa ip),
             hostname_len := (inet_ntoa ip).length, ip := ip, cluster_port := port,
             now_connections := 0 } ∧
    (add_machine MAX b ip port (run MAX calls (emptyTable MAX))).1.cluster_machine_count =
      (run MAX calls (emptyTable MAX)).cluster_machine_count + 1 := by
  obtain ⟨hcr, hroom, hb⟩ := do_add_machine_success MAX b ip port _ hsucc
  subst hb
  obtain ⟨hlen, hz⟩ := run_counts_zero MAX calls (emptyTable MAX)
    (by rw [emptyTable_eq]; simp)
    (by rw [emptyTable_eq]; intro x hx; rw [List.eq_of_mem_replicate hx]; rfl)
  have hold : ((run MAX calls (emptyTable MAX)).cluster_machines.getD
      (run MAX calls (emptyTable MAX)).cluster_machine_count
      ClusterMachine.zero).now_connections = 0 := by
    rw [List.getD_eq_getElem?_getD]
    cases hg : (run MAX calls (emptyTable MAX)).cluster_machines[
        (run MAX calls (emptyTable MAX)).cluster_machine_count]? with
    | none => rfl
    | some x => exact hz x (List.getElem?_mem hg)
  unfold add_machine
  simp only
  rw [do_add_machine_insert MAX _ _ hcr hroom (candidate_hostname_len ip port)]
  refine ⟨rfl, ?_, rfl⟩
  simp only [hold]
  rw [List.getElem?_set, if_pos rfl, if_pos (by rw [hlen]; exact hroom)]
  simp [candidate]

theorem new_record_postcondition_witness :
    (add_machine 4 true 2 80 afterFailedInsert).2 = some 1 ∧
    (add_machine 4 true 2 80 afterFailedInsert).1.cluster_machines[1]? =
      some { dead := true, hostname := some (inet_ntoa 2),
             hostname_len := (inet_ntoa 2).length, ip := 2, cluster_port := 80,
             now_connections := 0 } ∧
    (add_machine 4 true 2 80 afterFailedInsert).1.cluster_machine_count = 2 :=
  new_record_postcondition 4 [⟨2, 80, true⟩, ⟨1, 80, false⟩] true 2 80 (by decide)

/-- C13 fails on the code: on the table reached from the initialized empty one
by an `add_machine(1, 80)` whose hostname allocation fails (result `ENOMEM`,
yet slot 0 is returned and `cluster_machine_count` stays 0) and a successful
`machine_add_connection` through the returned pointer, `add_machine(2, 80)`
succeeds with result 0, takes slot 0 = the old `cluster_machine_count`, writes
ip, port, hostname, length and `dead = true`, raises the count to 1, but
leaves `now_connections = 1` in the new record: `do_add_machine` never writes
that field. -/
theorem new_record_count_not_zero :
    (do_add_machine 2 false (candidate 1 80) (emptyTable 2)).2 = (some 0, ENOMEM) ∧
    (add_machine 2 false 1 80 (emptyTable 2)).2 = some 0 ∧
    (add_machine 2 false 1 80 (emptyTable 2)).1.cluster_machine_count = 0 ∧
    (machine_add_connection 0 ⟨0, 'C'⟩ (add_machine 2 false 1 80 (emptyTable 2)).1).1 =
      connectedHalfBuilt ∧
    connectedHalfBuilt.cluster_machine_count = 0 ∧
    (do_add_machine 2 true (candidate 2 80) connectedHalfBuilt).2 = (some 0, 0) ∧
    (add_machine 2 true 2 80 connectedHalfBuilt).2 = some 0 ∧
    (add_machine 2 true 2 80 connectedHalfBuilt).1.cluster_machine_count = 1 ∧
    (add_machine 2 true 2 80 connectedHalfBuilt).1.cluster_machines[0]? =
      some { dead := true, hostname := some (inet_ntoa 2),
             hostname_len := (inet_ntoa 2).length, ip := 2, cluster_port := 80,
             now_connections := 1 } ∧
    (deref (add_machine 2 true 2 80 connectedHalfBuilt).1 (some 0)).now_connections ≠ 0 := by
  decide

/-! ## Frame of the lifecycle functions (C19) -/

theorem bsearch_loop_congr (t t1 : Table) (key : ClusterMachine)
    (hs : t1.sorted_machines = t.sorted_machines)
    (hk : ∀ p : Option Nat, compare_machine key (deref t1 p) = compare_machine key (deref t p)) :
    ∀ (fuel l u : Nat), bsearch_loop t1 key fuel l u = bsearch_loop t key fuel l u
  | 0, l, u => rfl
  | fuel + 1, l, u => by
    have hsa : ∀ i, sortedAt t1 i = sortedAt t i := by
      intro i; simp [sortedAt, hs]
    unfold bsearch_loop
    simp only [hsa, hk, bsearch_loop_congr t t1 key hs hk fuel]

theorem deref_store_self (t : Table) (h : Nat) (m : ClusterMachine) :
    deref (store t h m) (some h) = m ∨ deref (store t h m) (some h) = deref t (some h) := by
  by_cases hh : h < t.cluster_machines.length
  · exact Or.inl (deref_store_same t h m hh)
  · right
    have hn : t.cluster_machines[h]? = none := List.getElem?_eq_none (Nat.le_of_not_lt hh)
    simp [deref, store, List.getD_eq_getElem?_getD, List.getElem?_set, hh, hn]

theorem frameExcept_refl (t : Table) (target : Option Nat) : FrameExcept t t target :=
  ⟨rfl, rfl, rfl, fun _ => ⟨rfl, rfl, rfl, rfl⟩, fun _ _ => rfl, fun _ _ => rfl⟩

/-- Writing at `h` a record that agrees with the old one on `ip`,
`cluster_port`, `hostname` and `hostname_len` respects the frame. -/
theorem frameExcept_store (t : Table) (h : Nat) (m : ClusterMachine)
    (h1 : m.ip = (deref t (some h)).ip)
    (h2 : m.cluster_port = (deref t (some h)).cluster_port)
    (h3 : m.hostname = (deref t (some h)).hostname)
    (h4 : m.hostname_len = (deref t (some h)).hostname_len) :
    FrameExcept t (store t h m) (some h) := by
  have hid : ∀ k : Nat, (deref (store t h m) (some k)).ip = (deref t (some k)).ip ∧
      (deref (store t h m) (some k)).cluster_port = (deref t (some k)).cluster_port ∧
      (deref (store t h m) (some k)).hostname = (deref t (some k)).hostname ∧
      (deref (store t h m) (some k)).hostname_len = (deref t (some k)).hostname_len := by
    intro k
    by_cases hk : k = h
    · subst hk
      rcases deref_store_self t k m with e | e
      · rw [e]; exact ⟨h1, h2, h3, h4⟩
      · rw [e]; exact ⟨rfl, rfl, rfl, rfl⟩
    · rw [deref_store_other t h k m hk]; exact ⟨rfl, rfl, rfl, rfl⟩
  refine ⟨rfl, rfl, by simp [store], hid, ?_, ?_⟩
  · intro k hk
    have : ¬ (h = k) := fun e => hk (by rw [e])
    simp [store, List.getElem?_set, this]
  · intro ip port
    have hcmp : ∀ (key : ClusterMachine) (p : Option Nat),
        compare_machine key (deref (store t h m) p) = compare_machine key (deref t p) := by
      intro key p
      cases p with
      | none => rfl
      | some k =>
        obtain ⟨e1, e2, _, _⟩ := hid k
        simp only [compare_machine, e1, e2]
    unfold get_machine
    have hsa : ∀ i, sortedAt (store t h m) i = sortedAt t i := fun i => rfl
    have hc : (store t h m).cluster_machine_count = t.cluster_machine_count := rfl
    simp only [hc, hsa, bsearch_loop_congr t (store t h m) _ rfl (hcmp _)]

/-- C19: `machine_up_notify`, `machine_add_connection` and
`machine_remove_connection`, on any table, with any pointer and any
collaborator result, leave the sorted index, `cluster_machine_count` and every
machine's `ip`, `cluster_port`, `hostname` and `hostname_len` as they were,
leave every record other than the target's unchanged (so `dead` and
`now_connections` change for the target only), and leave the result of
`get_machine` for every key unchanged. -/
theorem lifecycle_frame (t : Table) (machine : Option Nat) (ctx : SocketContext)
    (r1 r2 : Int) :
    FrameExcept t (machine_up_notify machine t).1 machine ∧
    FrameExcept t (machine_add_connection r1 ctx t).1 (some ctx.machine) ∧
    FrameExcept t (machine_remove_connection r2 ctx t).1 (some ctx.machine) := by
  refine ⟨?_, ?_, ?_⟩
  · cases machine with
    | none => exact frameExcept_refl t none
    | some h =>
      unfold machine_up_notify
      simp only
      split
      · exact frameExcept_store t h _ rfl rfl rfl rfl
      · exact frameExcept_refl t _
  · unfold machine_add_connection
    split
    · exact frameExcept_refl t _
    · exact frameExcept_store t _ _ rfl rfl rfl rfl
  · unfold machine_remove_connection
    split
    · exact frameExcept_refl t _
    · simp only
      split
      · exact frameExcept_store t _ _ rfl rfl rfl rfl
      · exact frameExcept_store t _ _ rfl rfl rfl rfl

/-! ## compare_machine on arbitrary `int` ports (C14) -/

/-- C14 fails on the code: for two machines with the same ip and the `int`
ports 2147483647 and -1, the first key is the greater one, yet the port
difference 2147483648 does not fit an `int` and `compare_machine` returns the
wrapped value -2147483648, a negative result. -/
theorem compare_machine_overflow :
    isInt32 2147483647 ∧ isInt32 (-1) ∧
    keyLt (keyOf (candidate 1 (-1))) (keyOf (candidate 1 2147483647)) ∧
    compare_machine (candidate 1 2147483647) (candidate 1 (-1)) = -2147483648 ∧
    compare_machine (candidate 1 2147483647) (candidate 1 (-1)) < 0 := by
  decide

/-! ## Index and store after an allocation failure (C17) -/

/-- C17 fails on the code: after `add_machine(5, 80)`, `add_machine(9, 80)` and
an `add_machine(7, 80)` that returns through the `ENOMEM` branch, the count is
2 and the first two index entries point to slots 0 and 2: slot 1, which holds
the stored machine (9, 80), is not indexed, and slot 2, which is outside the
stored slots, is. -/
theorem index_store_mismatch :
    afterFailedMiddle.cluster_machine_count = 2 ∧
    afterFailedMiddle.sorted_machines.take 2 = [some 0, some 2] ∧
    some 1 ∉ afterFailedMiddle.sorted_machines.take afterFailedMiddle.cluster_machine_count ∧
    some 2 ∈ afterFailedMiddle.sorted_machines.take afterFailedMiddle.cluster_machine_count ∧
    ¬ IndexCoversStore afterFailedMiddle := by
  refine ⟨by decide, by decide, by decide, by decide, ?_⟩
  intro h
  have h1 : some 1 ∈ (List.range afterFailedMiddle.cluster_machine_count).map some := by
    decide
  have h2 := (h.mem_iff).mpr h1
  exact absurd h2 (by decide)

/-! ## Sequences of registry calls (C11, C12) -/

theorem store_length (t : Table) (h : Nat) (m : ClusterMachine) :
    (store t h m).cluster_machines.length = t.cluster_machines.length := by
  simp [store]

theorem deref_mem_or_zero (t : Table) (h : Nat) :
    deref t (some h) ∈ t.cluster_machines ∨ deref t (some h) = ClusterMachine.zero := by
  simp only [deref, List.getD_eq_getElem?_getD]
  cases hg : t.cluster_machines[h]? with
  | none => exact Or.inr rfl
  | some x => exact Or.inl (List.getElem?_mem hg)

/-- A connection count between 0 and `INT_MAX`. -/
theorem deref_range (t : Table) (h : Nat)
    (hz : ∀ x ∈ t.cluster_machines, 0 ≤ x.now_connections ∧ x.now_connections ≤ INT_MAX) :
    0 ≤ (deref t (some h)).now_connections ∧ (deref t (some h)).now_connections ≤ INT_MAX := by
  rcases deref_mem_or_zero t h with h1 | h1
  · exact hz _ h1
  · rw [h1]; exact ⟨le_refl _, by decide⟩

theorem store_range (t : Table) (h : Nat) (m : ClusterMachine)
    (hz : ∀ x ∈ t.cluster_machines, 0 ≤ x.now_connections ∧ x.now_connections ≤ INT_MAX)
    (hm : 0 ≤ m.now_connections ∧ m.now_connections ≤ INT_MAX) :
    ∀ x ∈ (store t h m).cluster_machines,
      0 ≤ x.now_connections ∧ x.now_connections ≤ INT_MAX := by
  intro x hx
  rcases List.mem_or_eq_of_mem_set hx with h1 | h1
  · exact hz x h1
  · rw [h1]; exact hm

/-- Connection counts between 0 and `INT_MAX` survive `do_add_machine`, which
never writes `now_connections`. -/
theorem do_add_machine_counts_range (MAX : Nat) (b : Bool) (m : ClusterMachine) (t : Table)
    (hz : ∀ x ∈ t.cluster_machines, 0 ≤ x.now_connections ∧ x.now_connections ≤ INT_MAX) :
    ∀ x ∈ (do_add_machine MAX b m t).1.cluster_machines,
      0 ≤ x.now_connections ∧ x.now_connections ≤ INT_MAX := by
  have hold : 0 ≤ (t.cluster_machines.getD t.cluster_machine_count
        ClusterMachine.zero).now_connections ∧
      (t.cluster_machines.getD t.cluster_machine_count
        ClusterMachine.zero).now_connections ≤ INT_MAX :=
    deref_range t t.cluster_machine_count hz
  unfold do_add_machine
  simp only
  split
  · exact hz
  · split
    · exact hz
    · split
      · intro x hx
        rcases List.mem_or_eq_of_mem_set hx with h1 | h1
        · exact hz x h1
        · rw [h1]; exact hold
      · split
        · intro x hx
          rcases List.mem_or_eq_of_mem_set hx with h1 | h1
          · exact hz x h1
          · rw [h1]; exact hold
        · intro x hx
          rcases List.mem_or_eq_of_mem_set hx with h1 | h1
          · exact hz x h1
          · rw [h1]; exact hold

theorem runOps_range (MAX : Nat) (ops : List Op) :
    ∀ t : Table,
      (∀ x ∈ t.cluster_machines, 0 ≤ x.now_connections ∧ x.now_connections ≤ INT_MAX) →
      callsCovered MAX ops t →
      ∀ x ∈ (runOps MAX ops t).cluster_machines,
        0 ≤ x.now_connections ∧ x.now_connections ≤ INT_MAX := by
  induction ops with
  | nil => intro t hz _; exact hz
  | cons op rest ih =>
    intro t hz hcov
    cases op with
    | add c =>
      exact ih _ (do_add_machine_counts_range MAX _ _ t hz) hcov
    | up machine =>
      refine ih _ ?_ hcov
      cases machine with
      | none => exact hz
      | some h =>
        show ∀ x ∈ (machine_up_notify (some h) t).1.cluster_machines,
          0 ≤ x.now_connections ∧ x.now_connections ≤ INT_MAX
        unfold machine_up_notify
        simp only
        split
        · exact store_range t h _ hz (deref_range t h hz)
        · exact hz
    | connect r ctx =>
      obtain ⟨hc1, hc2⟩ := hcov
      refine ih _ ?_ hc2
      show ∀ x ∈ (machine_add_connection r ctx t).1.cluster_machines,
        0 ≤ x.now_connections ∧ x.now_connections ≤ INT_MAX
      unfold machine_add_connection
      split
      · exact hz
      · rename_i hr
        have h1 := hc1 (by simpa using hr)
        have h2 := deref_range t ctx.machine hz
        refine store_range t _ _ hz ?_
        simp only
        unfold wrapInt32
        unfold INT_MAX at h1 h2 ⊢
        omega
    | disconnect r ctx =>
      obtain ⟨hc1, hc2⟩ := hcov
      refine ih _ ?_ hc2
      show ∀ x ∈ (machine_remove_connection r ctx t).1.cluster_machines,
        0 ≤ x.now_connections ∧ x.now_connections ≤ INT_MAX
      unfold machine_remove_connection
      split
      · exact hz
      · rename_i hr
        have h1 := hc1 (by simpa using hr)
        have h2 := deref_range t ctx.machine hz
        have h3 : 0 ≤ wrapInt32 ((deref t (some ctx.machine)).now_connections - 1) ∧
            wrapInt32 ((deref t (some ctx.machine)).now_connections - 1) ≤ INT_MAX := by
          unfold wrapInt32
          unfold INT_MAX at h2 ⊢
          omega
        simp only
        split
        · exact store_range t _ _ hz h3
        · exact store_range t _ _ hz h3

/-- One successful `machine_add_connection` below `INT_MAX`, with the store
length. -/
theorem add_connection_step (ctx : SocketContext) (t : Table)
    (hh : ctx.machine < t.cluster_machines.length)
    (hlo : INT_MIN ≤ (deref t (some ctx.machine)).now_connections)
    (hhi : (deref t (some ctx.machine)).now_connections < INT_MAX) :
    ((machine_add_connection 0 ctx t).2.1 = [] ∧
      (machine_add_connection 0 ctx t).1.cluster_machines.length =
        t.cluster_machines.length) ∧
    (deref (machine_add_connection 0 ctx t).1 (some ctx.machine)).dead =
      (deref t (some ctx.machine)).dead ∧
    (deref (machine_add_connection 0 ctx t).1 (some ctx.machine)).now_connections =
      (deref t (some ctx.machine)).now_connections + 1 := by
  have hw : wrapInt32 ((deref t (some ctx.machine)).now_connections + 1) =
      (deref t (some ctx.machine)).now_connections + 1 := by
    apply wrapInt32_eq_self
    unfold isInt32
    unfold INT_MIN INT_MAX at *
    omega
  simp [machine_add_connection, deref_store_same _ _ _ hh, store_length, hw]

/-- One successful `machine_remove_connection` on an alive machine with a
count above `INT_MIN`: the count drops by one; the machine dies and is
notified exactly when the count reaches 0. -/
theorem remove_connection_step (ctx : SocketContext) (t : Table)
    (hh : ctx.machine < t.cluster_machines.length)
    (halive : (deref t (some ctx.machine)).dead = false)
    (hlo : INT_MIN < (deref t (some ctx.machine)).now_connections)
    (hhi : (deref t (some ctx.machine)).now_connections ≤ INT_MAX) :
    (machine_remove_connection 0 ctx t).1.cluster_machines.length =
      t.cluster_machines.length ∧
    (deref (machine_remove_connection 0 ctx t).1 (some ctx.machine)).now_connections =
      (deref t (some ctx.machine)).now_connections - 1 ∧
    ((deref t (some ctx.machine)).now_connections = 1 →
      (machine_remove_connection 0 ctx t).2.1 = [ctx.machine] ∧
      (deref (machine_remove_connection 0 ctx t).1 (some ctx.machine)).dead = true) ∧
    ((deref t (some ctx.machine)).now_connections ≠ 1 →
      (machine_remove_connection 0 ctx t).2.1 = [] ∧
      (deref (machine_remove_connection 0 ctx t).1 (some ctx.machine)).dead = false) := by
  have hw : wrapInt32 ((deref t (some ctx.machine)).now_connections - 1) =
      (deref t (some ctx.machine)).now_connections - 1 := by
    apply wrapInt32_eq_self
    unfold isInt32
    unfold INT_MIN INT_MAX at *
    omega
  unfold machine_remove_connection
  simp only [ne_eq, not_true_eq_false, if_false, hw]
  by_cases h1 : (deref t (some ctx.machine)).now_connections = 1
  · have hc : (deref t (some ctx.machine)).now_connections - 1 = 0 ∧
        (deref t (some ctx.machine)).dead = false := ⟨by omega, halive⟩
    rw [if_pos hc]
    simp [deref_store_same _ _ _ hh, store_length, h1]
  · have hc : ¬ ((deref t (some ctx.machine)).now_connections - 1 = 0 ∧
        (deref t (some ctx.machine)).dead = false) := by
      intro hx; apply h1; omega
    rw [if_neg hc]
    simp [deref_store_same _ _ _ hh, store_length, h1, halive]

/-- After `n` successful `machine_add_connection` calls that stay within
`INT_MAX` the count is `n` higher, `dead` is what it was and nothing was
notified. -/
theorem repeat_add_connection (ctx : SocketContext) :
    ∀ (n : Nat) (t : Table), ctx.machine < t.cluster_machines.length →
      INT_MIN ≤ (deref t (some ctx.machine)).now_connections →
      (deref t (some ctx.machine)).now_connections + n ≤ INT_MAX →
      (repeatCall (machine_add_connection 0 ctx) n t).2 = [] ∧
      (repeatCall (machine_add_connection 0 ctx) n t).1.cluster_machines.length =
        t.cluster_machines.length ∧
      (deref (repeatCall (machine_add_connection 0 ctx) n t).1 (some ctx.machine)).dead =
        (deref t (some ctx.machine)).dead ∧
      (deref (repeatCall (machine_add_connection 0 ctx) n t).1
        (some ctx.machine)).now_connections = (deref t (some ctx.machine)).now_connections + n
  | 0, t => by
    intro _ _ _
    simp [repeatCall]
  | n + 1, t => by
    intro hh hlo hhi
    push_cast at hhi
    obtain ⟨a1, a2, a3⟩ := add_connection_step ctx t hh hlo (by omega)
    have hh2 : ctx.machine < (machine_add_connection 0 ctx t).1.cluster_machines.length := by
      rw [a1.2]; exact hh
    obtain ⟨i1, i2, i3, i4⟩ := repeat_add_connection ctx n _ hh2
      (by rw [a3]; omega) (by rw [a3]; omega)
    simp only [repeatCall]
    refine ⟨by rw [a1.1, i1]; rfl, by rw [i2, a1.2], by rw [i3, a2], ?_⟩
    rw [i4, a3]
    push_cast
    omega

/-- While more connections remain than calls are made, `k` successful
`machine_remove_connection` calls on an alive machine lower the count by `k`,
keep it alive and notify nothing. -/
theorem repeat_remove_connection (ctx : SocketContext) :
    ∀ (k : Nat) (t : Table), ctx.machine < t.cluster_machines.length →
      (deref t (some ctx.machine)).dead = false →
      (deref t (some ctx.machine)).now_connections ≤ INT_MAX →
      (k : Int) < (deref t (some ctx.machine)).now_connections →
      (repeatCall (machine_remove_connection 0 ctx) k t).2 = [] ∧
      (repeatCall (machine_remove_connection 0 ctx) k t).1.cluster_machines.length =
        t.cluster_machines.length ∧
      (deref (repeatCall (machine_remove_connection 0 ctx) k t).1 (some ctx.machine)).dead =
        false ∧
      (deref (repeatCall (machine_remove_connection 0 ctx) k t).1
        (some ctx.machine)).now_connections = (deref t (some ctx.machine)).now_connections - k
  | 0, t => by
    intro _ halive _ _
    simp [repeatCall, halive]
  | k + 1, t => by
    intro hh halive hhi hk
    push_cast at hk
    obtain ⟨r1, r2, _, r4⟩ := remove_connection_step ctx t hh halive
      (by unfold INT_MIN; omega) hhi
    have hne : (deref t (some ctx.machine)).now_connections ≠ 1 := by omega
    obtain ⟨r5, r6⟩ := r4 hne
    have hh2 : ctx.machine < (machine_remove_connection 0 ctx t).1.cluster_machines.length := by
      rw [r1]; exact hh
    obtain ⟨i1, i2, i3, i4⟩ := repeat_remove_connection ctx k _ hh2 r6
      (by rw [r2]; omega) (by rw [r2]; omega)
    simp only [repeatCall]
    refine ⟨by rw [r5, i1]; rfl, by rw [i2, r1], i3, ?_⟩
    rw [i4, r2]
    push_cast
    omega

/-- Making a call `k + 1` times is making it `k` times and then once more. -/
theorem repeatCall_succ_last (op : Table → Table × List Nat × Int) :
    ∀ (k : Nat) (t : Table),
      repeatCall op (k + 1) t =
        ((op (repeatCall op k t).1).1, (repeatCall op k t).2 ++ (op (repeatCall op k t).1).2.1)
  | 0, t => by simp [repeatCall]
  | k + 1, t => by
    have ih := repeatCall_succ_last op k (op t).1
    rw [repeatCall, ih]
    simp [repeatCall, List.append_assoc]

/-- After 2147483648 successful `machine_add_connection` calls on a machine
with count 0 the `int` count has wrapped to -2147483648. -/
theorem add_connection_wraps (ctx : SocketContext) (t : Table)
    (hh : ctx.machine < t.cluster_machines.length)
    (h0 : (deref t (some ctx.machine)).now_connections = 0) :
    (deref (repeatCall (machine_add_connection 0 ctx) 2147483648 t).1
      (some ctx.machine)).now_connections = -2147483648 := by
  obtain ⟨_, a2, _, a4⟩ := repeat_add_connection ctx 2147483647 t hh
    (by rw [h0]; decide) (by rw [h0]; decide)
  have hlast : repeatCall (machine_add_connection 0 ctx) 2147483648 t =
      ((machine_add_connection 0 ctx
          (repeatCall (machine_add_connection 0 ctx) 2147483647 t).1).1,
        (repeatCall (machine_add_connection 0 ctx) 2147483647 t).2 ++
          (machine_add_connection 0 ctx
            (repeatCall (machine_add_connection 0 ctx) 2147483647 t).1).2.1) :=
    repeatCall_succ_last (machine_add_connection 0 ctx) 2147483647 t
  have hh2 : ctx.machine <
      (repeatCall (machine_add_connection 0 ctx) 2147483647 t).1.cluster_machines.length := by
    rw [a2]; exact hh
  rw [hlast]
  simp only [machine_add_connection, ne_eq, not_true_eq_false, if_false,
    deref_store_same _ _ _ hh2]
  rw [a4, h0]
  decide

/-- C11, as stated, fails: after `add_machine(1, 80)` on the empty table, a
`machine_remove_connection` whose deregistration succeeds is neither rejected
nor clamped; it returns 0 and leaves the machine with `now_connections = -1`.
The count also becomes negative without any removal: 2147483648 successful
`machine_add_connection` calls on that machine wrap it to -2147483648. -/
theorem connection_count_negative :
    (deref oneMachine (some 0)).now_connections = 0 ∧
    (machine_remove_connection 0 ⟨0, 'C'⟩ oneMachine).2.2 = 0 ∧
    (deref (runOps 2 [Op.add ⟨1, 80, true⟩, Op.disconnect 0 ⟨0, 'C'⟩]
      (emptyTable 2)) (some 0)).now_connections = -1 ∧
    ¬ (∀ x ∈ (runOps 2 [Op.add ⟨1, 80, true⟩, Op.disconnect 0 ⟨0, 'C'⟩]
      (emptyTable 2)).cluster_machines, 0 ≤ x.now_connections) ∧
    (deref (repeatCall (machine_add_connection 0 ⟨0, 'C'⟩) 2147483648 oneMachine).1
      (some 0)).now_connections = -2147483648 :=
  ⟨by decide, by decide, by decide, by decide,
   add_connection_wraps ⟨0, 'C'⟩ oneMachine (by decide) (by decide)⟩

/-- C11 (amended): in every state reached from the initialized table by
`add_machine`, `machine_up_notify`, `machine_add_connection` and
`machine_remove_connection` calls in which each successful
`machine_remove_connection` is applied to a machine holding at least one
connection and each successful `machine_add_connection` to a machine holding
fewer than `INT_MAX` connections, every machine's `now_connections` is at
least 0 (and at most `INT_MAX`); a successful `machine_remove_connection` on a
machine whose count is 0 is not rejected or clamped: it returns 0 and leaves
the count at -1. -/
theorem connection_count_nonneg_when_covered (MAX : Nat) :
    (∀ ops : List Op, callsCovered MAX ops (emptyTable MAX) →
      ∀ x ∈ (runOps MAX ops (emptyTable MAX)).cluster_machines,
        0 ≤ x.now_connections ∧ x.now_connections ≤ INT_MAX) ∧
    (∀ (t : Table) (ctx : SocketContext), ctx.machine < t.cluster_machines.length →
      (deref t (some ctx.machine)).now_connections = 0 →
      (machine_remove_connection 0 ctx t).2.2 = 0 ∧
      (deref (machine_remove_connection 0 ctx t).1 (some ctx.machine)).now_connections = -1) := by
  constructor
  · intro ops hcov
    refine runOps_range MAX ops _ ?_ hcov
    rw [emptyTable_eq]
    intro x hx
    rw [List.eq_of_mem_replicate hx]
    exact ⟨le_refl _, by decide⟩
  · intro t ctx hh h0
    have hw : wrapInt32 ((deref t (some ctx.machine)).now_connections - 1) = -1 := by
      rw [h0]; decide
    unfold machine_remove_connection
    simp only [ne_eq, not_true_eq_false, if_false]
    split
    · refine ⟨rfl, ?_⟩
      rw [deref_store_same _ _ _ hh]
      exact hw
    · refine ⟨rfl, ?_⟩
      rw [deref_store_same _ _ _ hh]
      exact hw

theorem connection_count_nonneg_when_covered_witness :
    (∀ x ∈ (runOps 2 [Op.add ⟨1, 80, true⟩, Op.up (some 0), Op.connect 0 ⟨0, 'C'⟩,
        Op.disconnect 0 ⟨0, 'C'⟩] (emptyTable 2)).cluster_machines,
      0 ≤ x.now_connections ∧ x.now_connections ≤ INT_MAX) ∧
    (deref (machine_remove_connection 0 ⟨0, 'C'⟩ oneMachine).1 (some 0)).now_connections = -1 :=
  ⟨(connection_count_nonneg_when_covered 2).1
      [Op.add ⟨1, 80, true⟩, Op.up (some 0), Op.connect 0 ⟨0, 'C'⟩, Op.disconnect 0 ⟨0, 'C'⟩]
      ⟨fun _ => by decide, fun _ => by decide, trivial⟩,
   ((connection_count_nonneg_when_covered 2).2 oneMachine ⟨0, 'C'⟩ (by decide) (by decide)).2⟩

/-- Liveness edges from the state a first insertion leaves: for a stored
machine with `dead = true` and `now_connections = 0` and every `n` from 1 to
`INT_MAX`, `machine_up_notify`, then `n` successful `machine_add_connection`
calls, then `n` successful `machine_remove_connection` calls notify exactly
twice, both times this machine: once in `machine_up_notify`, never in the
additions or in the first `n - 1` removals, and once in the last removal; the
machine ends with `dead = true` and `now_connections = 0`. -/
theorem liveness_edges_from_zero (t : Table) (ctx : SocketContext) (n : Nat)
    (hh : ctx.machine < t.cluster_machines.length)
    (hdead : (deref t (some ctx.machine)).dead = true)
    (h0 : (deref t (some ctx.machine)).now_connections = 0) (hn : 1 ≤ n)
    (hmax : (n : Int) ≤ INT_MAX) :
    (machine_up_notify (some ctx.machine) t).2.1 = [ctx.machine] ∧
    (repeatCall (machine_add_connection 0 ctx) n
      (machine_up_notify (some ctx.machine) t).1).2 = [] ∧
    (repeatCall (machine_remove_connection 0 ctx) (n - 1)
      (repeatCall (machine_add_connection 0 ctx) n
        (machine_up_notify (some ctx.machine) t).1).1).2 = [] ∧
    (machine_remove_connection 0 ctx
      (repeatCall (machine_remove_connection 0 ctx) (n - 1)
        (repeatCall (machine_add_connection 0 ctx) n
          (machine_up_notify (some ctx.machine) t).1).1).1).2.1 = [ctx.machine] ∧
    (upAddRemove n ctx t).2 = [ctx.machine, ctx.machine] ∧
    (deref (upAddRemove n ctx t).1 (some ctx.machine)).dead = true ∧
    (deref (upAddRemove n ctx t).1 (some ctx.machine)).now_connections = 0 := by
  obtain ⟨k, hk⟩ : ∃ k, n = k + 1 := ⟨n - 1, by omega⟩
  subst hk
  simp only [Nat.add_sub_cancel]
  push_cast at hmax
  have hup : machine_up_notify (some ctx.machine) t =
      (store t ctx.machine { deref t (some ctx.machine) with dead := false },
        [ctx.machine], 0) := by
    simp [machine_up_notify, hdead]
  have hup1 : (machine_up_notify (some ctx.machine) t).2.1 = [ctx.machine] := by rw [hup]
  have hh1 : ctx.machine < (machine_up_notify (some ctx.machine) t).1.cluster_machines.length := by
    rw [hup]; simpa [store] using hh
  have hd1 : (deref (machine_up_notify (some ctx.machine) t).1 (some ctx.machine)).dead =
      false := by
    rw [hup]; simp [deref_store_same _ _ _ hh]
  have hc1 : (deref (machine_up_notify (some ctx.machine) t).1
      (some ctx.machine)).now_connections = 0 := by
    rw [hup]; simp [deref_store_same _ _ _ hh, h0]
  obtain ⟨a1, a2, a3, a4⟩ := repeat_add_connection ctx (k + 1) _ hh1
    (by rw [hc1]; decide) (by rw [hc1]; push_cast; omega)
  rw [hd1] at a3
  rw [hc1] at a4
  push_cast at a4
  have hh2 : ctx.machine < (repeatCall (machine_add_connection 0 ctx) (k + 1)
      (machine_up_notify (some ctx.machine) t).1).1.cluster_machines.length := by
    rw [a2]; exact hh1
  obtain ⟨b1, b2, b3, b4⟩ := repeat_remove_connection ctx k _ hh2 a3
    (by rw [a4]; omega) (by rw [a4]; omega)
  have hh3 : ctx.machine < (repeatCall (machine_remove_connection 0 ctx) k
      (repeatCall (machine_add_connection 0 ctx) (k + 1)
        (machine_up_notify (some ctx.machine) t).1).1).1.cluster_machines.length := by
    rw [b2]; exact hh2
  have hone : (deref (repeatCall (machine_remove_connection 0 ctx) k
      (repeatCall (machine_add_connection 0 ctx) (k + 1)
        (machine_up_notify (some ctx.machine) t).1).1).1
      (some ctx.machine)).now_connections = 1 := by
    rw [b4, a4]; omega
  obtain ⟨_, c2, c3, _⟩ := remove_connection_step ctx _ hh3 b3
    (by rw [hone]; decide) (by rw [hone]; decide)
  obtain ⟨c5, c6⟩ := c3 hone
  have hlast := repeatCall_succ_last (machine_remove_connection 0 ctx) k
    (repeatCall (machine_add_connection 0 ctx) (k + 1)
      (machine_up_notify (some ctx.machine) t).1).1
  refine ⟨hup1, a1, b1, c5, ?_, ?_, ?_⟩
  · unfold upAddRemove
    simp only
    rw [hlast, hup1, a1, b1, c5]
    rfl
  · unfold upAddRemove
    simp only
    rw [hlast]
    exact c6
  · unfold upAddRemove
    simp only
    rw [hlast]
    simp only
    rw [c2, hone]; rfl

/-- C12 fails on the code: an `add_machine(1, 80)` whose hostname allocation
fails returns slot 0 without counting it; a successful
`machine_add_connection` through that pointer sets the slot's count to 1; the
next `add_machine(2, 80)` succeeds (result 0), takes slot 0 and never writes
`now_connections`.  On this freshly inserted machine `machine_up_notify`, one
successful `machine_add_connection` and one successful
`machine_remove_connection` notify once, not twice, and leave the machine
alive with `now_connections = 1`. -/
theorem liveness_edges_broken :
    (add_machine 2 false 1 80 (emptyTable 2)).2 = some 0 ∧
    connectedHalfBuilt =
      (machine_add_connection 0 ⟨0, 'C'⟩ (add_machine 2 false 1 80 (emptyTable 2)).1).1 ∧
    (do_add_machine 2 true (candidate 2 80) connectedHalfBuilt).2 = (some 0, 0) ∧
    reusedSlot = (add_machine 2 true 2 80 connectedHalfBuilt).1 ∧
    (deref reusedSlot (some 0)).dead = true ∧
    (deref reusedSlot (some 0)).now_connections = 1 ∧
    (upAddRemove 1 ⟨0, 'C'⟩ reusedSlot).2 = [0] ∧
    (deref (upAddRemove 1 ⟨0, 'C'⟩ reusedSlot).1 (some 0)).dead = false ∧
    (deref (upAddRemove 1 ⟨0, 'C'⟩ reusedSlot).1 (some 0)).now_connections = 1 := by
  decide

/-! ## The insertion point (C16) -/

/-- On a strictly ascending index the lower-bound search ends at a position
with only smaller keys before it and no smaller key from it on. -/
theorem spec_lower_bound_loop_spec (t : Table) (k : Nat × Int) (hs : IndexSorted t) :
    ∀ (fuel lo hi : Nat), lo ≤ hi → hi ≤ t.cluster_machine_count → hi - lo ≤ fuel →
      (∀ j, j < lo → keyLt (keyAt t j) k) →
      (∀ j, hi ≤ j → j < t.cluster_machine_count → ¬ keyLt (keyAt t j) k) →
      (∀ j, j < spec_lower_bound_loop t k fuel lo hi → keyLt (keyAt t j) k) ∧
      (∀ j, spec_lower_bound_loop t k fuel lo hi ≤ j → j < t.cluster_machine_count →
        ¬ keyLt (keyAt t j) k) ∧
      spec_lower_bound_loop t k fuel lo hi ≤ t.cluster_machine_count
  | 0, lo, hi => by
    intro h1 h2 h3 h4 h5
    have : lo = hi := by omega
    subst this
    exact ⟨h4, h5, h2⟩
  | fuel + 1, lo, hi => by
    intro h1 h2 h3 h4 h5
    unfold spec_lower_bound_loop
    by_cases hlt : lo < hi
    · rw [if_pos hlt]
      have hmid : (lo + hi) / 2 < hi := by omega
      have hmid2 : lo ≤ (lo + hi) / 2 := by omega
      by_cases hk : keyLt (keyAt t ((lo + hi) / 2)) k
      · rw [if_pos hk]
        refine spec_lower_bound_loop_spec t k hs fuel _ hi (by omega) h2 (by omega) ?_ h5
        intro j hj
        rcases Nat.lt_or_ge j ((lo + hi) / 2) with h6 | h6
        · exact keyLt_trans (hs.lt h6 (by omega)) hk
        · have : j = (lo + hi) / 2 := by omega
          rw [this]; exact hk
      · rw [if_neg hk]
        refine spec_lower_bound_loop_spec t k hs fuel lo _ hmid2 (by omega) (by omega) h4 ?_
        intro j hj hjc hlt2
        rcases Nat.eq_or_lt_of_le hj with h6 | h6
        · rw [← h6] at hlt2; exact hk hlt2
        · exact hk (keyLt_trans (hs.lt h6 hjc) hlt2)
    · rw [if_neg hlt]
      have : lo = hi := by omega
      subst this
      exact ⟨h4, h5, h2⟩

/-- Where the scan of `do_add_machine` stops, for port numbers: every indexed
key before the position is below the candidate's, and the key at the position,
if there is one, is not. -/
theorem scan_loop_position (t : Table) (m : ClusterMachine) (hm : isPort m.cluster_port)
    (hports : ∀ i, i < t.cluster_machine_count → isPort (keyAt t i).2) :
    (scan_loop t m t.cluster_machine_count 0 (-1)).1 ≤ t.cluster_machine_count ∧
    (∀ j, j < (scan_loop t m t.cluster_machine_count 0 (-1)).1 →
      keyLt (keyAt t j) (keyOf m)) ∧
    ((scan_loop t m t.cluster_machine_count 0 (-1)).1 < t.cluster_machine_count →
      ¬ keyLt (keyAt t (scan_loop t m t.cluster_machine_count 0 (-1)).1) (keyOf m)) := by
  obtain ⟨_, h2, h3, h4, _⟩ := scan_loop_spec t m t.cluster_machine_count 0 (-1) (by omega)
  refine ⟨h2, ?_, ?_⟩
  · intro j hj
    have sign := compare_machine_sign m (deref t (sortedAt t j)) hm (hports j (by omega))
    exact sign.2.2.mp (h3 j (Nat.zero_le _) hj)
  · intro hlt hk
    have sign := compare_machine_sign m (deref t (sortedAt t _)) hm (hports _ hlt)
    have hpos := sign.2.2.mpr hk
    obtain ⟨h7, h8⟩ := h4 hlt
    rw [h7] at h8
    omega

/-- The index after `do_add_machine` took the insertion path, whatever the
allocation does: shifted from the scan position and the new slot stored
there; the returned pointer is the new slot. -/
theorem do_add_machine_index (MAX : Nat) (b : Bool) (m : ClusterMachine) (t : Table)
    (hcr : (scan_loop t m t.cluster_machine_count 0 (-1)).2 ≠ 0)
    (hroom : t.cluster_machine_count < MAX) :
    (do_add_machine MAX b m t).1.sorted_machines =
      (shift_loop (scan_loop t m t.cluster_machine_count 0 (-1)).1
        t.cluster_machine_count t.sorted_machines).set
        (scan_loop t m t.cluster_machine_count 0 (-1)).1 (some t.cluster_machine_count) ∧
    (do_add_machine MAX b m t).2.1 = some t.cluster_machine_count := by
  have h2 : ¬ (t.cluster_machine_count ≥ MAX) := by omega
  unfold do_add_machine
  simp only [hcr, h2, if_false]
  split
  · exact ⟨rfl, rfl⟩
  · split
    · exact ⟨rfl, rfl⟩
    · exact ⟨rfl, rfl⟩

/-- C16: for a strictly ascending index with port numbers in 0..65535 and a
candidate whose key is not indexed, with room left, the position chosen by the
scan of `do_add_machine` is the smallest position whose key is not below the
candidate's (every key before it is below, no key from it on is), the count
itself when there is none; it is the position the spec's lower-bound binary
search returns; and the first `count + 1` entries of the resulting index are
the old `count` entries with the new slot's pointer, which is the pointer
returned, put in at that position and the later entries moved right by one. -/
theorem insertion_point (MAX : Nat) (b : Bool) (m : ClusterMachine) (t : Table)
    (hsorted : IndexSorted t)
    (hports : ∀ i, i < t.cluster_machine_count → isPort (keyAt t i).2)
    (hm : isPort m.cluster_port) (hnew : keyOf m ∉ indexKeys t)
    (hroom : t.cluster_machine_count < MAX)
    (hidx : t.cluster_machine_count < t.sorted_machines.length) :
    (scan_loop t m t.cluster_machine_count 0 (-1)).1 ≤ t.cluster_machine_count ∧
    (∀ j, j < (scan_loop t m t.cluster_machine_count 0 (-1)).1 →
      keyLt (keyAt t j) (keyOf m)) ∧
    (∀ j, (scan_loop t m t.cluster_machine_count 0 (-1)).1 ≤ j →
      j < t.cluster_machine_count → ¬ keyLt (keyAt t j) (keyOf m)) ∧
    (scan_loop t m t.cluster_machine_count 0 (-1)).1 = spec_insertion_point t (keyOf m) ∧
    (do_add_machine MAX b m t).2.1 = some t.cluster_machine_count ∧
    (do_add_machine MAX b m t).1.sorted_machines.take (t.cluster_machine_count + 1) =
      (t.sorted_machines.take t.cluster_machine_count).take
          (scan_loop t m t.cluster_machine_count 0 (-1)).1 ++
        some t.cluster_machine_count ::
          (t.sorted_machines.take t.cluster_machine_count).drop
            (scan_loop t m t.cluster_machine_count 0 (-1)).1 := by
  obtain ⟨p1, p2, p3⟩ := scan_loop_position t m hm hports
  obtain ⟨q1, q2, q3⟩ := spec_lower_bound_loop_spec t (keyOf m) hsorted
    t.cluster_machine_count 0 t.cluster_machine_count (Nat.zero_le _) (le_refl _) (by omega)
    (by intro j hj; omega) (by intro j h1 h2; omega)
  have heq : (scan_loop t m t.cluster_machine_count 0 (-1)).1 =
      spec_insertion_point t (keyOf m) := by
    unfold spec_insertion_point
    rcases Nat.lt_trichotomy (scan_loop t m t.cluster_machine_count 0 (-1)).1
      (spec_lower_bound_loop t (keyOf m) t.cluster_machine_count 0 t.cluster_machine_count)
      with h | h | h
    · exact absurd (q1 _ h) (p3 (by omega))
    · exact h
    · exact absurd (p2 _ h) (q2 _ (le_refl _) (by omega))
  have hcr : (scan_loop t m t.cluster_machine_count 0 (-1)).2 ≠ 0 := by
    intro hc
    obtain ⟨hlt, hcmp⟩ := scan_found t m hc
    have sign := compare_machine_sign m (deref t (sortedAt t _)) hm (hports _ hlt)
    have hk := sign.2.1.mp hcmp
    apply hnew
    rw [hk, ← keyAt_eq, ← indexKeys_getElem t _ (by rw [indexKeys_length]; exact hlt)]
    exact List.getElem_mem _
  obtain ⟨i1, i2⟩ := do_add_machine_index MAX b m t hcr hroom
  refine ⟨p1, p2, ?_, heq, i2, ?_⟩
  · intro j h1 h2
    rw [heq] at h1
    exact q2 j h1 h2
  · rw [i1, shift_set_take _ _ _ _ p1 hidx, List.take_take, Nat.min_eq_left p1]

theorem insertion_point_witness :
    (scan_loop twoMachines (candidate 2 80) 2 0 (-1)).1 = 1 ∧
    spec_insertion_point twoMachines (2, 80) = 1 ∧
    (do_add_machine 4 true (candidate 2 80) twoMachines).1.sorted_machines.take 3 =
      [some 0, some 2, some 1] :=
  ⟨by decide, by decide,
   (insertion_point 4 true (candidate 2 80) twoMachines (by decide) (by decide) (by decide)
      (by decide) (by decide) (by decide)).2.2.2.2.2⟩

/-! ## Index and store when allocations succeed -/

/-- The outcome of `do_add_machine` when the scan reports a match. -/
theorem do_add_machine_match (MAX : Nat) (b : Bool) (m : ClusterMachine) (t : Table)
    (hcr : (scan_loop t m t.cluster_machine_count 0 (-1)).2 = 0) :
    do_add_machine MAX b m t =
      (t, sortedAt t (scan_loop t m t.cluster_machine_count 0 (-1)).1, EEXIST) := by
  simp [do_add_machine, hcr]

/-- Calls whose allocations all succeed, with any `int` ports, keep the table
in the shape `Inv` for some list of keys. -/
theorem inv_run_allocations_succeed (MAX : Nat) (calls : List Call) :
    ∀ (t : Table) (ks : List (Nat × Int)), (∀ c ∈ calls, c.malloc_ok = true) →
      Inv MAX t ks → ∃ ks1, Inv MAX (run MAX calls t) ks1 := by
  induction calls with
  | nil => intro t ks _ h; exact ⟨ks, h⟩
  | cons c cs ih =>
    intro t ks hok h
    have hc := hok c (List.mem_cons_self _ _)
    have hcs : ∀ c1 ∈ cs, c1.malloc_ok = true := fun c1 hc1 => hok c1 (List.mem_cons_of_mem _ hc1)
    show ∃ ks1, Inv MAX (run MAX cs (Cluster.step MAX t c)) ks1
    unfold Cluster.step add_machine
    simp only
    by_cases hcr : (scan_loop t (candidate c.ip c.port) t.cluster_machine_count 0 (-1)).2 = 0
    · rw [do_add_machine_match MAX _ _ t hcr]
      exact ih t ks hcs h
    · by_cases hfull : MAX ≤ ks.length
      · rw [do_add_machine_full MAX _ _ t hcr (by rw [h.count_eq]; exact hfull)]
        exact ih t ks hcs h
      · rw [hc]
        exact ih _ _ hcs (h.insert_scan c.ip c.port hcr (by omega)).2

/-- With every allocation succeeding, after any sequence of `add_machine`
calls on the empty table the first `cluster_machine_count` index entries are
the pointers to slots `0 .. cluster_machine_count - 1` in some order. -/
theorem index_covers_store_when_allocations_succeed (MAX : Nat) (calls : List Call)
    (hok : ∀ c ∈ calls, c.malloc_ok = true) :
    IndexCoversStore (run MAX calls (emptyTable MAX)) := by
  obtain ⟨ks, h⟩ := inv_run_allocations_succeed MAX calls _ [] hok (inv_emptyTable MAX)
  exact h.index_perm

end Cluster
